import Mathlib

/-!
Verification of the toy JSON parser (lexer + recursive-descent parser).

The definitions below are a shallow embedding of the TypeScript source:
`lex`, `lexString`, `lexBoolean`, `parseTokens`, `parseObject`, `parseArray`
and the public `parse` entry point.  Character scanning loops and the
token-consuming loops are modelled with explicit fuel; running out of fuel
(or the genuinely divergent string-scanning loop) is reported as `diverge`.
JavaScript runtime faults (reading a property of `undefined` on an empty
array) are modelled as a distinct `typeError` outcome, separate from the
thrown lexer and parser errors.
-/

namespace ToyJson

/-- The three JSON whitespace characters accepted by the lexer
(space, horizontal tab, line feed; carriage return is not included). -/
def isWhitespace (c : Char) : Bool :=
  c == ' ' || c == '\t' || c == '\n'

/-- The six structural characters of the grammar. -/
def isSyntaxChar (c : Char) : Bool :=
  c == '[' || c == '\x7b' || c == ']' || c == '\x7d' || c == ':' || c == ','

/-- The structural characters as one-character strings, in source order. -/
def synStrings : List String :=
  ["[", "\x7b", "]", "\x7d", ":", ","]

/-- Token kinds (`TOKEN_TYPES` in the source).  `syn` stands for the
structural/syntax kind. -/
inductive TkType where
  | string
  | boolean
  | number
  | syn
deriving DecidableEq, Repr

/-- A token's `value` field: the decoded string or a boolean.  (Numbers are
never produced.)  Note that a string token's value and a syntax token's
one-character value live in the same type, mirroring the JavaScript `===`
comparisons that can equate them. -/
inductive TkValue where
  | s (v : String)
  | b (v : Bool)
deriving DecidableEq, Repr

/-- A lexical token: a kind together with the decoded value. -/
structure Token where
  type : TkType
  value : TkValue
deriving DecidableEq, Repr

/-- String token constructor. -/
def strTok (s : String) : Token := ⟨.string, .s s⟩

/-- Syntax token constructor. -/
def synTok (s : String) : Token := ⟨.syn, .s s⟩

/-- Boolean token constructor. -/
def boolTok (b : Bool) : Token := ⟨.boolean, .b b⟩

/-- `value.toString().length`, used by `lex` to advance past a boolean
literal (`"true"` has 4 characters, `"false"` 5). -/
def Token.textLen (t : Token) : Nat :=
  match t.value with
  | .b true => 4
  | .b false => 5
  | .s v => v.length

/-- The failure outcomes of a run: an error thrown by the lexer, an error
thrown by the parser, or a JavaScript `TypeError` from reading property
`prop` of `undefined`. -/
inductive JsonError where
  | lexError (msg : String)
  | parseError (msg : String)
  | typeError (prop : String)
deriving DecidableEq, Repr

mutual
/-- The value tree produced by the parser: strings, booleans, ordered
objects and arrays.  There is no number or null variant. -/
inductive Value where
  | str (s : String)
  | bool (b : Bool)
  | obj (fields : FieldList)
  | arr (elems : ElemList)
inductive FieldList where
  | nil
  | cons (key : String) (val : Value) (rest : FieldList)
inductive ElemList where
  | nil
  | cons (head : Value) (rest : ElemList)
end

/-- The numeric value of a list of decimal digit characters. -/
def natOfDigits (l : List Char) : Nat :=
  l.foldl (fun n c => 10 * n + (c.toNat - 48)) 0

/-- A JavaScript array-index property key: the canonical decimal numeral
(no leading zero except `"0"` itself) of an integer below 2^32 - 1.
JavaScript objects enumerate such keys before all other string keys, in
ascending numeric order. -/
def isIndexKey (s : String) : Bool :=
  match s.toList with
  | [] => false
  | [c] => c.isDigit
  | c :: cs => c.isDigit && !(c = '0') && cs.all Char.isDigit &&
      natOfDigits (c :: cs) < 4294967295

/-- `k` is enumerated strictly before `k2` by JavaScript property order
whenever `k` is an array-index key and `k2` is not, or both are and `k` is
numerically smaller. -/
def keyLt (k k2 : String) : Bool :=
  isIndexKey k && (!isIndexKey k2 || natOfDigits k.toList < natOfDigits k2.toList)

/-- JavaScript object assignment `output[key] = value`, keeping the member
list in the object's enumeration order: an existing key keeps its position
and gets the new value; a new array-index-like key is placed before every
numerically larger index key and before every non-index key (JavaScript
enumerates integer-like keys first, ascending); any other new key is
appended at the end (creation order). -/
def setKey : FieldList → String → Value → FieldList
  | .nil, k, v => .cons k v .nil
  | .cons k2 v2 rest, k, v =>
    if k2 = k then .cons k2 v rest
    else if keyLt k k2 then .cons k v (.cons k2 v2 rest)
    else .cons k2 v2 (setKey rest k v)

/-- JavaScript `output.push(value)` on an array. -/
def pushElem : ElemList → Value → ElemList
  | .nil, v => .cons v .nil
  | .cons h rest, v => .cons h (pushElem rest v)

/-- `value.toString()` on a token value (only reached for string tokens,
booleans included for totality). -/
def TkValue.toStr : TkValue → String
  | .s v => v
  | .b true => "true"
  | .b false => "false"

/-- A bare token value used as a parse result. -/
def TkValue.toValue : TkValue → Value
  | .s v => .str v
  | .b v => .bool v

/-- The `parseArray` loop breaks (and then throws) when the value returned
by `parseTokens` is (a string equal to) one of the structural characters. -/
def isSynStringValue : Value → Bool
  | .str s => synStrings.contains s
  | _ => false

/-- The scanning loop of `lexString`, modelled one loop iteration per unit
of fuel.  The state is the remaining character list; the JavaScript loop
keeps running with an exhausted list (reading `undefined`), which the
`[]` branches mirror by consuming fuel without progress, so `none` at every
fuel is genuine non-termination.  On success: the number of characters
consumed before the closing quote and the decoded string. -/
def lexStringFuel : Nat → List Char → Option (Nat × String)
  | 0, _ => none
  | fuel + 1, [] => lexStringFuel fuel []
  | fuel + 1, c :: cs =>
    if c = '"' then some (0, "")
    else if c = '\\' then
      match cs with
      | [] => lexStringFuel fuel []
      | e :: cs2 =>
        (lexStringFuel fuel cs2).map (fun p => (p.1 + 2, String.singleton e ++ p.2))
    else
      (lexStringFuel fuel cs).map (fun p => (p.1 + 1, String.singleton c ++ p.2))

/-- Total counterpart of the `lexString` scanning loop: `none` exactly on
the inputs where the loop diverges (no unescaped closing quote). -/
def lexString : List Char → Option (Nat × String)
  | [] => none
  | c :: cs =>
    if c = '"' then some (0, "")
    else if c = '\\' then
      match cs with
      | [] => none
      | e :: cs2 =>
        (lexString cs2).map (fun p => (p.1 + 2, String.singleton e ++ p.2))
    else
      (lexString cs).map (fun p => (p.1 + 1, String.singleton c ++ p.2))

/-- There is an unescaped closing quote in the list, under the scanner's
own notion of escaping (a backslash always consumes the next character). -/
def hasCloser : List Char → Bool
  | [] => false
  | c :: cs =>
    if c = '"' then true
    else if c = '\\' then
      match cs with
      | [] => false
      | _ :: cs2 => hasCloser cs2
    else hasCloser cs

/-- Whitespace test on an optional character (an out-of-range JavaScript
index yields `undefined`, which is not whitespace). -/
def isWsOpt : Option Char → Bool
  | some c => isWhitespace c
  | none => false

/-- `lexBoolean` from the source: match `true`/`false` exactly, then check
the delimiter lookahead.  For `true` the structural delimiters are checked
at index 4 (the character right after the literal) but the whitespace
check reads index 5; for `false` all checks are at index 5. -/
def lexBoolean (chars : List Char) : Except JsonError Token :=
  if chars.take 4 = "true".toList ∧
      (chars[4]? = some ',' ∨ chars[4]? = some '\x7d' ∨ chars[4]? = some ']' ∨
        isWsOpt chars[5]? = true) then
    .ok (boolTok true)
  else if chars.take 5 = "false".toList ∧
      (chars[5]? = some ',' ∨ chars[5]? = some '\x7d' ∨ chars[5]? = some ']' ∨
        isWsOpt chars[5]? = true) then
    .ok (boolTok false)
  else
    .error (.lexError "[lexer.boolean] Unknown boolean value.")

/-- The main lexer loop, one iteration per unit of fuel: skip whitespace,
emit syntax tokens, delegate to `lexString` after an opening quote (then
drop the consumed characters and the closing quote), delegate to
`lexBoolean` on `t`/`f`, and throw on any other character.  `none` is
non-termination (from `lexString`) or fuel exhaustion. -/
def lexLoopF : Nat → List Char → Option (Except JsonError (List Token))
  | 0, _ => none
  | _ + 1, [] => some (.ok [])
  | fuel + 1, c :: cs =>
    if isWhitespace c then lexLoopF fuel cs
    else if isSyntaxChar c then
      (lexLoopF fuel cs).map (·.map (synTok (String.singleton c) :: ·))
    else if c = '"' then
      match lexString cs with
      | none => none
      | some (len, str) =>
        (lexLoopF fuel (cs.drop (len + 1))).map (·.map (strTok str :: ·))
    else if c = 't' ∨ c = 'f' then
      match lexBoolean (c :: cs) with
      | .error e => some (.error e)
      | .ok tok =>
        (lexLoopF fuel ((c :: cs).drop tok.textLen)).map (·.map (tok :: ·))
    else
      some (.error (.lexError
        ("[lexer] Invalid character, \"" ++ String.singleton c ++ "\", found.")))

/-- `lex`: run the lexer loop with enough fuel for its one-or-more
characters per iteration. -/
def lex (cs : List Char) : Option (Except JsonError (List Token)) :=
  lexLoopF (cs.length + 1) cs

mutual
/-- `parseTokens`: dispatch on the first token's value (begin-object,
begin-array, otherwise the token's own value).  An empty token list makes
the source read `tokens[0].value` of `undefined`. -/
def parseTokensF : Nat → List Token → Option (Except JsonError (List Token × Value))
  | 0, _ => none
  | fuel + 1, t =>
    match t with
    | [] => some (.error (.typeError "value"))
    | tok :: rest =>
      if tok.value = .s "\x7b" then parseObjectF fuel rest .nil
      else if tok.value = .s "[" then parseArrayF fuel rest .nil
      else some (.ok (rest, tok.value.toValue))

/-- The `parseObject` loop.  Each iteration: break (then throw the
missing-end-object error) unless the head token is a string key, require
`:`, parse the member value, store it, then handle a value separator (with
the trailing-comma check) and the end-object token. -/
def parseObjectF : Nat → List Token → FieldList → Option (Except JsonError (List Token × Value))
  | 0, _, _ => none
  | fuel + 1, t, out =>
    match t with
    | [] => some (.error (.typeError "type"))
    | tok :: rest =>
      if tok.type ≠ TkType.string then
        some (.error (.parseError "[parser.object] Missing expected \"\x7d\"."))
      else
        match rest with
        | [] => some (.error (.typeError "value"))
        | sep :: rest2 =>
          if sep.value ≠ .s ":" then
            some (.error (.parseError
              "[parser.object] Invalid character, \"[object Object]\", found. Expected \":\"."))
          else
            match parseTokensF fuel rest2 with
            | none => none
            | some (.error e) => some (.error e)
            | some (.ok (t2, v)) =>
              let out2 := setKey out tok.value.toStr v
              match t2 with
              | [] => some (.error (.typeError "value"))
              | u :: us =>
                if u.value = .s "," then
                  match us with
                  | [] => some (.error (.typeError "value"))
                  | w :: ws =>
                    if w.value = .s "\x7d" then
                      some (.error (.parseError "[parser.object] No trailing commas allowed."))
                    else if w.value = .s "\x7d" then
                      some (.ok (ws, .obj out2))
                    else parseObjectF fuel (w :: ws) out2
                else if u.value = .s "\x7d" then
                  some (.ok (us, .obj out2))
                else parseObjectF fuel (u :: us) out2

/-- The `parseArray` loop.  Each iteration: parse a value with
`parseTokens` (an empty list faults there), break (then throw the
missing-end-array error) if the value is a structural-character string,
push it, throw on an empty remainder, then handle a value separator (with
the trailing-comma check) and the end-array token. -/
def parseArrayF : Nat → List Token → ElemList → Option (Except JsonError (List Token × Value))
  | 0, _, _ => none
  | fuel + 1, t, out =>
    match parseTokensF fuel t with
    | none => none
    | some (.error e) => some (.error e)
    | some (.ok (t2, v)) =>
      if isSynStringValue v then
        some (.error (.parseError "[parser.array] Missing expected \"]\"."))
      else
        let out2 := pushElem out v
        match t2 with
        | [] => some (.error (.parseError "[parser.array] Missing expected \"]\"."))
        | u :: us =>
          if u.value = .s "," then
            match us with
            | [] => some (.error (.typeError "value"))
            | w :: ws =>
              if w.value = .s "]" then
                some (.error (.parseError "[parser.array] No trailing commas allowed."))
              else if w.value = .s "]" then
                some (.ok (ws, .arr out2))
              else parseArrayF fuel (w :: ws) out2
          else if u.value = .s "]" then
            some (.ok (us, .arr out2))
          else parseArrayF fuel (u :: us) out2
end

/-- Outcome of `parse`: a value, a thrown error, or non-termination. -/
inductive PResult where
  | ok (v : Value)
  | err (e : JsonError)
  | diverge

/-- The public entry point: lex, then parse the token sequence and return
only the value (the leftover tokens are discarded). -/
def parse (input : String) : PResult :=
  match lex input.toList with
  | none => .diverge
  | some (.error e) => .err e
  | some (.ok toks) =>
    match parseTokensF (toks.length + 1) toks with
    | none => .diverge
    | some (.error e) => .err e
    | some (.ok (_, v)) => .ok v

/-- Success test on a lexed boolean token. -/
def isOkTok : Except JsonError Token → Bool
  | .ok _ => true
  | .error _ => false

/-!
Reference encoder and auxiliary notions, written from the specification's
words (a compact reference JSON encoder and the class of value trees it is
claimed to round-trip), for comparison with the parser above.
-/

/-- Modelled from the spec: the reference encoder's escaping for one
character (quotes and backslashes get a backslash; everything else is
emitted verbatim). -/
def escapeChar (c : Char) : List Char :=
  if c = '"' ∨ c = '\\' then ['\\', c] else [c]

/-- Escape a whole character list. -/
def escapeChars : List Char → List Char
  | [] => []
  | c :: cs => escapeChar c ++ escapeChars cs

/-- Modelled from the spec: a compact JSON string literal. -/
def encodeStringLit (s : String) : List Char :=
  '"' :: (escapeChars s.toList ++ ['"'])

mutual
/-- Modelled from the spec: compact (whitespace-free) reference JSON
encoding of a value tree. -/
def encodeValue : Value → List Char
  | .str s => encodeStringLit s
  | .bool true => ['t', 'r', 'u', 'e']
  | .bool false => ['f', 'a', 'l', 's', 'e']
  | .obj fs => '\x7b' :: (encodeFields fs ++ ['\x7d'])
  | .arr es => '[' :: (encodeElems es ++ [']'])
/-- Members of an object, comma-separated. -/
def encodeFields : FieldList → List Char
  | .nil => []
  | .cons k v fs => encodeStringLit k ++ ':' :: (encodeValue v ++ encodeFieldsTail fs)
/-- Members after the first, each preceded by a comma. -/
def encodeFieldsTail : FieldList → List Char
  | .nil => []
  | .cons k v fs =>
    ',' :: (encodeStringLit k ++ ':' :: (encodeValue v ++ encodeFieldsTail fs))
/-- Elements of an array, comma-separated. -/
def encodeElems : ElemList → List Char
  | .nil => []
  | .cons v es => encodeValue v ++ encodeElemsTail es
/-- Elements after the first, each preceded by a comma. -/
def encodeElemsTail : ElemList → List Char
  | .nil => []
  | .cons v es => ',' :: (encodeValue v ++ encodeElemsTail es)
end

mutual
/-- The token sequence the lexer produces for an encoded value. -/
def tokensOfValue : Value → List Token
  | .str s => [strTok s]
  | .bool b => [boolTok b]
  | .obj fs => synTok "\x7b" :: (tokensOfFields fs ++ [synTok "\x7d"])
  | .arr es => synTok "[" :: (tokensOfElems es ++ [synTok "]"])
/-- Tokens of the comma-separated members of an object. -/
def tokensOfFields : FieldList → List Token
  | .nil => []
  | .cons k v fs => strTok k :: synTok ":" :: (tokensOfValue v ++ tokensOfFieldsTail fs)
/-- Tokens of the members after the first, each preceded by a comma. -/
def tokensOfFieldsTail : FieldList → List Token
  | .nil => []
  | .cons k v fs =>
    synTok "," :: strTok k :: synTok ":" :: (tokensOfValue v ++ tokensOfFieldsTail fs)
/-- Tokens of the comma-separated elements of an array. -/
def tokensOfElems : ElemList → List Token
  | .nil => []
  | .cons v es => tokensOfValue v ++ tokensOfElemsTail es
/-- Tokens of the elements after the first, each preceded by a comma. -/
def tokensOfElemsTail : ElemList → List Token
  | .nil => []
  | .cons v es => synTok "," :: (tokensOfValue v ++ tokensOfElemsTail es)
end

/-- Tokens of object members with no separating commas between them
(members separated by whitespace only in the input text). -/
def tokensOfFieldsNC : FieldList → List Token
  | .nil => []
  | .cons k v fs => strTok k :: synTok ":" :: (tokensOfValue v ++ tokensOfFieldsNC fs)

/-- Tokens of array elements with no separating commas between them. -/
def tokensOfElemsNC : ElemList → List Token
  | .nil => []
  | .cons v es => tokensOfValue v ++ tokensOfElemsNC es

/-- A string that is not one of the one-character structural strings (those
confuse the parser's value-based token comparisons). -/
def goodString (s : String) : Bool :=
  !(synStrings.contains s)

mutual
/-- The restricted class of value trees for the round-trip property:
every object and array is nonempty and every string (key or value) is
not a one-character structural string. -/
def goodValue : Value → Bool
  | .str s => goodString s
  | .bool _ => true
  | .obj .nil => false
  | .obj (.cons k v fs) => goodString k && goodValue v && goodFields fs
  | .arr .nil => false
  | .arr (.cons v es) => goodValue v && goodElems es
/-- `goodValue` on the remaining members of an object. -/
def goodFields : FieldList → Bool
  | .nil => true
  | .cons k v fs => goodString k && goodValue v && goodFields fs
/-- `goodValue` on the remaining elements of an array. -/
def goodElems : ElemList → Bool
  | .nil => true
  | .cons v es => goodValue v && goodElems es
end

mutual
/-- Fuel needed by `parseTokensF` beyond any slack to consume an encoded
value. -/
def fNeedValue : Value → Nat
  | .str _ => 1
  | .bool _ => 1
  | .obj fs => 1 + fNeedFields fs
  | .arr es => 1 + fNeedElems es
/-- Fuel needed by the `parseObjectF` loop for the remaining members. -/
def fNeedFields : FieldList → Nat
  | .nil => 0
  | .cons _ v fs => 1 + fNeedValue v + fNeedFields fs
/-- Fuel needed by the `parseArrayF` loop for the remaining elements. -/
def fNeedElems : ElemList → Nat
  | .nil => 0
  | .cons v es => 1 + fNeedValue v + fNeedElems es
end

/-- Fold a list of members into an object with repeated JavaScript
assignments (`setKey`), left to right. -/
def foldSetKey : FieldList → FieldList → FieldList
  | acc, .nil => acc
  | acc, .cons k v fs => foldSetKey (setKey acc k v) fs

mutual
/-- What the parser returns for an encoded tree: each object's member list
collapsed by repeated assignment (duplicate keys keep their first position
and take their last value). -/
def collapseValue : Value → Value
  | .str s => .str s
  | .bool b => .bool b
  | .obj fs => .obj (foldSetKey .nil (collapseFields fs))
  | .arr es => .arr (collapseElems es)
/-- `collapseValue` applied to each member's value. -/
def collapseFields : FieldList → FieldList
  | .nil => .nil
  | .cons k v fs => .cons k (collapseValue v) (collapseFields fs)
/-- `collapseValue` applied to each element. -/
def collapseElems : ElemList → ElemList
  | .nil => .nil
  | .cons v es => .cons (collapseValue v) (collapseElems es)
end

/-- Concatenation of member lists. -/
def catF : FieldList → FieldList → FieldList
  | .nil, ys => ys
  | .cons k v xs, ys => .cons k v (catF xs ys)

/-- Concatenation of element lists. -/
def catE : ElemList → ElemList → ElemList
  | .nil, ys => ys
  | .cons x xs, ys => .cons x (catE xs ys)

/-- The keys of an object, in order. -/
def keysOf : FieldList → List String
  | .nil => []
  | .cons k _ fs => k :: keysOf fs

/-- Look a key up in an object (first occurrence). -/
def getKey : FieldList → String → Option Value
  | .nil, _ => none
  | .cons k2 v2 fs, k => if k2 = k then some v2 else getKey fs k

mutual
/-- Every object in the tree has pairwise distinct keys. -/
def uniqValue : Value → Bool
  | .str _ => true
  | .bool _ => true
  | .obj fs => decide (keysOf fs).Nodup && uniqFields fs
  | .arr es => uniqElems es
/-- `uniqValue` on the values of the remaining members. -/
def uniqFields : FieldList → Bool
  | .nil => true
  | .cons _ v fs => uniqValue v && uniqFields fs
/-- `uniqValue` on the remaining elements. -/
def uniqElems : ElemList → Bool
  | .nil => true
  | .cons v es => uniqValue v && uniqElems es
end

/-- A character a string may contain without affecting the reference
encoding: anything that is not a control character below U+0020 (the
reference encoder emits it verbatim unless it is a quote or a backslash,
two escapes this parser decodes back correctly). -/
def cleanChar (c : Char) : Bool :=
  decide (32 ≤ c.toNat)

/-- Hexadecimal digit character (lower case) for `\u00XX` escapes. -/
def hexDigit (n : Nat) : Char :=
  Char.ofNat (if n < 10 then 48 + n else 87 + n)

/-- Modelled from the spec: the reference JSON encoder's escaping for one
character.  RFC 8259 obliges an encoder to escape the quotation mark, the
backslash and every control character below U+0020 (the named escapes for
backspace, tab, line feed, form feed, carriage return, and `\u00XX` for the
rest); every other character is emitted verbatim. -/
def refEscapeChar (c : Char) : List Char :=
  if c = '"' then ['\\', '"']
  else if c = '\\' then ['\\', '\\']
  else if c = '\x08' then ['\\', 'b']
  else if c = '\t' then ['\\', 't']
  else if c = '\n' then ['\\', 'n']
  else if c = '\x0c' then ['\\', 'f']
  else if c = '\r' then ['\\', 'r']
  else if c.toNat < 32 then
    ['\\', 'u', '0', '0', hexDigit (c.toNat / 16), hexDigit (c.toNat % 16)]
  else [c]

/-- Reference escaping of a whole character list. -/
def refEscapeChars : List Char → List Char
  | [] => []
  | c :: cs => refEscapeChar c ++ refEscapeChars cs

/-- Modelled from the spec: a compact JSON string literal as the reference
encoder emits it. -/
def refStringLit (s : String) : List Char :=
  '"' :: (refEscapeChars s.toList ++ ['"'])

mutual
/-- Modelled from the spec: compact (whitespace-free) reference JSON
encoding of a value tree, with full RFC 8259 string escaping. -/
def refEncodeValue : Value → List Char
  | .str s => refStringLit s
  | .bool true => ['t', 'r', 'u', 'e']
  | .bool false => ['f', 'a', 'l', 's', 'e']
  | .obj fs => '\x7b' :: (refEncodeFields fs ++ ['\x7d'])
  | .arr es => '[' :: (refEncodeElems es ++ [']'])
/-- Members of an object under the reference encoder. -/
def refEncodeFields : FieldList → List Char
  | .nil => []
  | .cons k v fs => refStringLit k ++ ':' :: (refEncodeValue v ++ refEncodeFieldsTail fs)
/-- Members after the first, each preceded by a comma. -/
def refEncodeFieldsTail : FieldList → List Char
  | .nil => []
  | .cons k v fs =>
    ',' :: (refStringLit k ++ ':' :: (refEncodeValue v ++ refEncodeFieldsTail fs))
/-- Elements of an array under the reference encoder. -/
def refEncodeElems : ElemList → List Char
  | .nil => []
  | .cons v es => refEncodeValue v ++ refEncodeElemsTail es
/-- Elements after the first, each preceded by a comma. -/
def refEncodeElemsTail : ElemList → List Char
  | .nil => []
  | .cons v es => ',' :: (refEncodeValue v ++ refEncodeElemsTail es)
end

/-- Strings in the round-trip class: not a one-character structural string
and free of control characters (whose reference escapes this parser would
decode to the wrong character). -/
def cleanString (s : String) : Bool :=
  goodString s && s.toList.all cleanChar

mutual
/-- The restricted class of value trees for the amended round trip: every
object and array nonempty, every string (key or value) clean. -/
def cleanValue : Value → Bool
  | .str s => cleanString s
  | .bool _ => true
  | .obj .nil => false
  | .obj (.cons k v fs) => cleanString k && cleanValue v && cleanFields fs
  | .arr .nil => false
  | .arr (.cons v es) => cleanValue v && cleanElems es
/-- `cleanValue` on the remaining members of an object. -/
def cleanFields : FieldList → Bool
  | .nil => true
  | .cons k v fs => cleanString k && cleanValue v && cleanFields fs
/-- `cleanValue` on the remaining elements of an array. -/
def cleanElems : ElemList → Bool
  | .nil => true
  | .cons v es => cleanValue v && cleanElems es
end

mutual
/-- No object key anywhere in the tree is an array-index-like key (for
which JavaScript enumeration would depart from insertion order). -/
def noIdxValue : Value → Bool
  | .str _ => true
  | .bool _ => true
  | .obj fs => noIdxFields fs
  | .arr es => noIdxElems es
/-- `noIdxValue` through the members of an object. -/
def noIdxFields : FieldList → Bool
  | .nil => true
  | .cons k v fs => !isIndexKey k && noIdxValue v && noIdxFields fs
/-- `noIdxValue` through the elements of an array. -/
def noIdxElems : ElemList → Bool
  | .nil => true
  | .cons v es => noIdxValue v && noIdxElems es
end

/-- The head character is a value separator or a closing bracket (the
lookahead a boolean literal needs right after itself). -/
def headSep : List Char → Bool
  | [] => false
  | c :: _ => c == ',' || c == '\x7d' || c == ']'

/-- The tree is a bare boolean (the only root whose encoding has no
delimiter after the literal). -/
def isBoolValue : Value → Bool
  | .bool _ => true
  | _ => false

/-- Prepend a token list to the result of a lexer run. -/
def prep (ts : List Token) (o : Option (Except JsonError (List Token))) :
    Option (Except JsonError (List Token)) :=
  o.map (·.map (ts ++ ·))

/-! ## Hand-proved equation lemmas for the scanning loops -/

theorem isSome_omap {α β : Type} (g : α → β) (o : Option α) :
    (o.map g).isSome = o.isSome := by
  cases o <;> rfl

theorem lexString_quote (cs : List Char) : lexString ('"' :: cs) = some (0, "") := by
  conv_lhs => unfold lexString
  rfl

theorem lexString_bs_nil : lexString ['\\'] = none := by
  conv_lhs => unfold lexString
  rfl

theorem lexString_bs (e : Char) (cs3 : List Char) :
    lexString ('\\' :: e :: cs3) =
      (lexString cs3).map (fun p => (p.1 + 2, String.singleton e ++ p.2)) := by
  conv_lhs => unfold lexString
  rfl

theorem lexString_other (c : Char) (hq : c ≠ '"') (hb : c ≠ '\\') (cs : List Char) :
    lexString (c :: cs) =
      (lexString cs).map (fun p => (p.1 + 1, String.singleton c ++ p.2)) := by
  conv_lhs => unfold lexString
  rw [if_neg hq, if_neg hb]

theorem lexStringFuel_nil : ∀ f, lexStringFuel f [] = none
  | 0 => rfl
  | f + 1 => lexStringFuel_nil f

theorem lexStringFuel_quote (f : Nat) (cs : List Char) :
    lexStringFuel (f + 1) ('"' :: cs) = some (0, "") := by
  conv_lhs => unfold lexStringFuel
  rfl

theorem lexStringFuel_bs_nil (f : Nat) :
    lexStringFuel (f + 1) ['\\'] = lexStringFuel f [] := by
  conv_lhs => unfold lexStringFuel
  rfl

theorem lexStringFuel_bs (f : Nat) (e : Char) (cs3 : List Char) :
    lexStringFuel (f + 1) ('\\' :: e :: cs3) =
      (lexStringFuel f cs3).map (fun p => (p.1 + 2, String.singleton e ++ p.2)) := by
  conv_lhs => unfold lexStringFuel
  rfl

theorem lexStringFuel_other (f : Nat) (c : Char) (hq : c ≠ '"') (hb : c ≠ '\\')
    (cs : List Char) :
    lexStringFuel (f + 1) (c :: cs) =
      (lexStringFuel f cs).map (fun p => (p.1 + 1, String.singleton c ++ p.2)) := by
  conv_lhs => unfold lexStringFuel
  rw [if_neg hq, if_neg hb]

theorem hasCloser_quote (cs : List Char) : hasCloser ('"' :: cs) = true := by
  conv_lhs => unfold hasCloser
  rfl

theorem hasCloser_bs_nil : hasCloser ['\\'] = false := by
  conv_lhs => unfold hasCloser
  rfl

theorem hasCloser_bs (e : Char) (cs3 : List Char) :
    hasCloser ('\\' :: e :: cs3) = hasCloser cs3 := by
  conv_lhs => unfold hasCloser
  rfl

theorem hasCloser_other (c : Char) (hq : c ≠ '"') (hb : c ≠ '\\') (cs : List Char) :
    hasCloser (c :: cs) = hasCloser cs := by
  conv_lhs => unfold hasCloser
  rw [if_neg hq, if_neg hb]

/-! ## The string-scanning loop: termination behaviour -/

theorem lexStringFuel_none_of_not_hasCloser :
    ∀ (f : Nat) (cs : List Char), hasCloser cs = false → lexStringFuel f cs = none := by
  intro f
  induction f with
  | zero => intro cs _; rfl
  | succ f ih =>
    intro cs h
    cases cs with
    | nil => exact lexStringFuel_nil _
    | cons c cs2 =>
      by_cases hq : c = '"'
      · subst hq
        rw [hasCloser_quote] at h
        exact absurd h (by simp)
      · by_cases hb : c = '\\'
        · subst hb
          cases cs2 with
          | nil => rw [lexStringFuel_bs_nil, lexStringFuel_nil]
          | cons e cs3 =>
            rw [hasCloser_bs] at h
            rw [lexStringFuel_bs, ih cs3 h]
            rfl
        · rw [hasCloser_other c hq hb] at h
          rw [lexStringFuel_other f c hq hb, ih cs2 h]
          rfl

theorem lexStringFuel_eq_lexString :
    ∀ (cs : List Char) (f : Nat), cs.length < f → lexStringFuel f cs = lexString cs
  | [], f, _ => by
    rw [lexStringFuel_nil]
    rfl
  | c :: cs, f, h => by
    obtain ⟨f', rfl⟩ : ∃ f', f = f' + 1 := ⟨f - 1, by omega⟩
    by_cases hq : c = '"'
    · subst hq
      rw [lexStringFuel_quote, lexString_quote]
    · by_cases hb : c = '\\'
      · subst hb
        cases cs with
        | nil => rw [lexStringFuel_bs_nil, lexStringFuel_nil, lexString_bs_nil]
        | cons e cs3 =>
          rw [lexStringFuel_bs, lexString_bs,
            lexStringFuel_eq_lexString cs3 f' (by simp at h; omega)]
      · rw [lexStringFuel_other f' c hq hb, lexString_other c hq hb,
          lexStringFuel_eq_lexString cs f' (by simp at h; omega)]

theorem lexString_isSome_eq_hasCloser :
    ∀ cs : List Char, (lexString cs).isSome = hasCloser cs
  | [] => rfl
  | c :: cs => by
    by_cases hq : c = '"'
    · subst hq
      rw [lexString_quote, hasCloser_quote]
      rfl
    · by_cases hb : c = '\\'
      · subst hb
        cases cs with
        | nil => rw [lexString_bs_nil, hasCloser_bs_nil]; rfl
        | cons e cs3 =>
          rw [lexString_bs, hasCloser_bs, isSome_omap]
          exact lexString_isSome_eq_hasCloser cs3
      · rw [lexString_other c hq hb, hasCloser_other c hq hb, isSome_omap]
        exact lexString_isSome_eq_hasCloser cs

/-- C10: `lexString`'s scanning loop never terminates on an unterminated
string literal (no fuel bound suffices, shown for a closer-free tail and
for one ending in a lone backslash); with enough fuel the loop terminates
exactly when an unescaped closing quote exists; and `parse` on an input
with an unterminated string diverges. -/
theorem lexString_termination :
    (∀ f, lexStringFuel f ['a', 'b', 'c'] = none) ∧
    (∀ f, lexStringFuel f ['a', '\\'] = none) ∧
    (∀ cs : List Char, (lexStringFuel (cs.length + 1) cs).isSome = hasCloser cs) ∧
    parse "[\"abc" = .diverge := by
  refine ⟨fun f => lexStringFuel_none_of_not_hasCloser f _ rfl,
    fun f => lexStringFuel_none_of_not_hasCloser f _ rfl, fun cs => ?_, rfl⟩
  rw [lexStringFuel_eq_lexString cs _ (by omega), lexString_isSome_eq_hasCloser]

/-! ## Empty containers, unclosed objects, trailing commas -/

/-- C1: the specification promises `parse "\x7b\x7d"` is an empty Object and
`parse "[]"` an empty Array, but the code throws for both: the object loop
breaks on the non-string `\x7d` token and throws its missing-end-object
error, and the array loop breaks on the `]` value and throws its
missing-end-array error. -/
theorem parse_empty_containers_throw :
    parse "\x7b\x7d" = .err (.parseError "[parser.object] Missing expected \"\x7d\".") ∧
    parse "[]" = .err (.parseError "[parser.array] Missing expected \"]\".") :=
  ⟨rfl, rfl⟩

/-- C5: on an object that is never closed the parser does not reach its
missing-end-object throw; it reads a property of `undefined` (a TypeError)
at the exhausted token list instead. -/
theorem parse_unclosed_object_typeError :
    parse "\x7b\"a\":\"b\"" = .err (.typeError "value") ∧
    parse "\x7b" = .err (.typeError "type") ∧
    parse "\x7b\"a\"" = .err (.typeError "value") :=
  ⟨rfl, rfl, rfl⟩

/-! ## Equation lemmas for the lexer loop and `prep` -/

theorem prep_nil_toks (o : Option (Except JsonError (List Token))) : prep [] o = o := by
  cases o with
  | none => rfl
  | some e => cases e <;> rfl

theorem prep_single (t : Token) (o : Option (Except JsonError (List Token))) :
    prep [t] o = o.map (·.map (t :: ·)) := by
  cases o with
  | none => rfl
  | some e => cases e <;> rfl

theorem prep_prep (a b : List Token) (o : Option (Except JsonError (List Token))) :
    prep a (prep b o) = prep (a ++ b) o := by
  cases o with
  | none => rfl
  | some e =>
    cases e with
    | error _ => rfl
    | ok l => simp [prep, Except.map, List.append_assoc]

theorem lexLoopF_nil (f : Nat) : lexLoopF (f + 1) [] = some (.ok []) := by
  conv_lhs => unfold lexLoopF

theorem lexLoopF_ws (f : Nat) (c : Char) (h : isWhitespace c = true) (cs : List Char) :
    lexLoopF (f + 1) (c :: cs) = lexLoopF f cs := by
  conv_lhs => unfold lexLoopF
  rw [if_pos h]

theorem lexLoopF_syn (f : Nat) (c : Char) (hw : isWhitespace c = false)
    (hs : isSyntaxChar c = true) (cs : List Char) :
    lexLoopF (f + 1) (c :: cs) = prep [synTok (String.singleton c)] (lexLoopF f cs) := by
  conv_lhs => unfold lexLoopF
  rw [if_neg (by simp [hw]), if_pos hs, prep_single]

theorem lexLoopF_quote_none (f : Nat) (cs : List Char) (h : lexString cs = none) :
    lexLoopF (f + 1) ('"' :: cs) = none := by
  conv_lhs => unfold lexLoopF
  rw [if_neg (by decide), if_neg (by decide), if_pos rfl, h]

theorem lexLoopF_quote_some (f : Nat) (cs : List Char) (len : Nat) (str : String)
    (h : lexString cs = some (len, str)) :
    lexLoopF (f + 1) ('"' :: cs) = prep [strTok str] (lexLoopF f (cs.drop (len + 1))) := by
  conv_lhs => unfold lexLoopF
  rw [if_neg (by decide), if_neg (by decide), if_pos rfl, h, prep_single]

theorem lexLoopF_tf_err (f : Nat) (c : Char) (hw : isWhitespace c = false)
    (hs : isSyntaxChar c = false) (hq : c ≠ '"') (hc : c = 't' ∨ c = 'f')
    (cs : List Char) (e : JsonError) (h : lexBoolean (c :: cs) = .error e) :
    lexLoopF (f + 1) (c :: cs) = some (.error e) := by
  conv_lhs => unfold lexLoopF
  rw [if_neg (by simp [hw]), if_neg (by simp [hs]), if_neg hq, if_pos hc, h]

theorem lexLoopF_tf_ok (f : Nat) (c : Char) (hw : isWhitespace c = false)
    (hs : isSyntaxChar c = false) (hq : c ≠ '"') (hc : c = 't' ∨ c = 'f')
    (cs : List Char) (tok : Token) (h : lexBoolean (c :: cs) = .ok tok) :
    lexLoopF (f + 1) (c :: cs) =
      prep [tok] (lexLoopF f ((c :: cs).drop tok.textLen)) := by
  conv_lhs => unfold lexLoopF
  rw [if_neg (by simp [hw]), if_neg (by simp [hs]), if_neg hq, if_pos hc, h, prep_single]

theorem lexLoopF_invalid (f : Nat) (c : Char) (hw : isWhitespace c = false)
    (hs : isSyntaxChar c = false) (hq : c ≠ '"') (ht : c ≠ 't') (hf : c ≠ 'f')
    (cs : List Char) :
    lexLoopF (f + 1) (c :: cs) =
      some (.error (.lexError
        ("[lexer] Invalid character, \"" ++ String.singleton c ++ "\", found."))) := by
  conv_lhs => unfold lexLoopF
  rw [if_neg (by simp [hw]), if_neg (by simp [hs]), if_neg hq,
    if_neg (by rintro (h | h) <;> simp_all)]

/-! ## Equation lemmas for the parser -/

theorem parseTokensF_nil (f : Nat) :
    parseTokensF (f + 1) [] = some (.error (.typeError "value")) := by
  conv_lhs => unfold parseTokensF

theorem parseTokensF_obj (f : Nat) (rest : List Token) :
    parseTokensF (f + 1) (Token.mk .syn (.s "\x7b") :: rest) = parseObjectF f rest .nil := by
  conv_lhs => unfold parseTokensF
  simp

theorem parseTokensF_arr (f : Nat) (rest : List Token) :
    parseTokensF (f + 1) (Token.mk .syn (.s "[") :: rest) = parseArrayF f rest .nil := by
  conv_lhs => unfold parseTokensF
  simp

theorem parseTokensF_str (f : Nat) (s : String) (h1 : s ≠ "\x7b") (h2 : s ≠ "[")
    (rest : List Token) :
    parseTokensF (f + 1) (Token.mk .string (.s s) :: rest) = some (.ok (rest, .str s)) := by
  conv_lhs => unfold parseTokensF
  simp only []
  rw [if_neg (by simp [h1]), if_neg (by simp [h2])]
  rfl

theorem parseTokensF_bool (f : Nat) (b : Bool) (rest : List Token) :
    parseTokensF (f + 1) (Token.mk .boolean (.b b) :: rest) = some (.ok (rest, .bool b)) := by
  conv_lhs => unfold parseTokensF
  simp only []
  rw [if_neg (by simp), if_neg (by simp)]
  rfl

/-! ## C6: any other leading character is a fatal lexer error -/

/-- C6: whenever the next unconsumed character is not whitespace, not a
structural character, not a quote and not `t`/`f` (so digits, `-`, the `n`
of `null`, and any stray symbol), the lexer throws its invalid-character
error immediately, whatever fuel remains; in particular `parse "[1]"` and
`parse "\x7b\"a\":null\x7d"` fail with that LexError. -/
theorem lex_invalid_character :
    (∀ (f : Nat) (c : Char) (cs : List Char), isWhitespace c = false →
      isSyntaxChar c = false → c ≠ '"' → c ≠ 't' → c ≠ 'f' →
      lexLoopF (f + 1) (c :: cs) =
        some (.error (.lexError
          ("[lexer] Invalid character, \"" ++ String.singleton c ++ "\", found.")))) ∧
    parse "[1]" = .err (.lexError "[lexer] Invalid character, \"1\", found.") ∧
    parse "\x7b\"a\":null\x7d" =
      .err (.lexError "[lexer] Invalid character, \"n\", found.") ∧
    parse "[-1]" = .err (.lexError "[lexer] Invalid character, \"-\", found.") :=
  ⟨fun f c cs hw hs hq ht hf => lexLoopF_invalid f c hw hs hq ht hf cs, rfl, rfl, rfl⟩

theorem lex_invalid_character_witness :
    lexLoopF (0 + 1) ['1'] =
      some (.error (.lexError "[lexer] Invalid character, \"1\", found.")) :=
  lex_invalid_character.1 0 '1' [] (by decide) (by decide) (by decide) (by decide)
    (by decide)

/-! ## C4: trailing commas are rejected -/

/-- C4: inside an object, a value separator whose following token is the
end-object token makes the parser throw its no-trailing-commas error, and
likewise inside an array with the end-array token; in particular
`parse "\x7b\"a\":\"b\",\x7d"` fails with that ParseError. -/
theorem parse_trailing_comma :
    (∀ (f : Nat) (k s : String) (rest : List Token) (out : FieldList),
      s ≠ "\x7b" → s ≠ "[" →
      parseObjectF (f + 2)
        (strTok k :: synTok ":" :: strTok s :: synTok "," :: synTok "\x7d" :: rest) out =
        some (.error (.parseError "[parser.object] No trailing commas allowed."))) ∧
    (∀ (f : Nat) (s : String) (rest : List Token) (out : ElemList),
      synStrings.contains s = false →
      parseArrayF (f + 2) (strTok s :: synTok "," :: synTok "]" :: rest) out =
        some (.error (.parseError "[parser.array] No trailing commas allowed."))) ∧
    parse "\x7b\"a\":\"b\",\x7d" =
      .err (.parseError "[parser.object] No trailing commas allowed.") ∧
    parse "[\"a\",]" = .err (.parseError "[parser.array] No trailing commas allowed.") := by
  refine ⟨?_, ?_, rfl, rfl⟩
  · intro f k s rest out h1 h2
    show parseObjectF ((f + 1) + 1) _ _ = _
    conv_lhs => unfold parseObjectF
    simp only [strTok, synTok]
    rw [parseTokensF_str f s h1 h2]
    rfl
  · intro f s rest out h
    have h1 : s ≠ "\x7b" := by rintro rfl; simp [synStrings] at h
    have h2 : s ≠ "[" := by rintro rfl; simp [synStrings] at h
    show parseArrayF ((f + 1) + 1) _ _ = _
    conv_lhs => unfold parseArrayF
    simp only [strTok, synTok]
    rw [parseTokensF_str f s h1 h2]
    simp only []
    rw [show isSynStringValue (.str s) = false from h]
    rfl

theorem parse_trailing_comma_witness :
    parseObjectF (0 + 2)
      (strTok "a" :: synTok ":" :: strTok "b" :: synTok "," :: synTok "\x7d" :: []) .nil =
      some (.error (.parseError "[parser.object] No trailing commas allowed.")) ∧
    parseArrayF (0 + 2) (strTok "b" :: synTok "," :: synTok "]" :: []) .nil =
      some (.error (.parseError "[parser.array] No trailing commas allowed.")) :=
  ⟨parse_trailing_comma.1 0 "a" "b" [] .nil (by decide) (by decide),
   parse_trailing_comma.2.1 0 "b" [] .nil (by decide)⟩

/-! ## C2: the boolean delimiter lookahead -/

/-- C2 (counterexample): the claim predicts that a `true` literal
immediately followed by a whitespace character lexes successfully, but the
code checks whitespace one position too far for `true`, so `[true ]` fails
with the boolean LexError. -/
theorem lexBoolean_ws_counterexample :
    parse "[true ]" = .err (.lexError "[lexer.boolean] Unknown boolean value.") :=
  rfl

/-- C2 (amended): lexing a boolean succeeds iff the exact literal is
followed by `,`/`\x7d`/`]` at the position right after it, or the character
one FURTHER (index 5) is whitespace — for `true` the whitespace test thus
looks one past the delimiter position, for `false` the two coincide.
Consequences: `[true  ]` (two spaces) parses while `[true ]` does not, and
`truex ` lexes as `true` leaving `x` behind. -/
theorem lexBoolean_delimiter_lookahead :
    (∀ chars : List Char, (∃ t, lexBoolean chars = .ok t) ↔
      ((chars.take 4 = "true".toList ∧
        (chars[4]? = some ',' ∨ chars[4]? = some '\x7d' ∨ chars[4]? = some ']' ∨
          isWsOpt chars[5]? = true)) ∨
       (chars.take 5 = "false".toList ∧
        (chars[5]? = some ',' ∨ chars[5]? = some '\x7d' ∨ chars[5]? = some ']' ∨
          isWsOpt chars[5]? = true)))) ∧
    parse "[true  ]" = .ok (.arr (.cons (.bool true) .nil)) ∧
    parse "[false ]" = .ok (.arr (.cons (.bool false) .nil)) ∧
    parse "[truex ]" = .err (.lexError "[lexer] Invalid character, \"x\", found.") := by
  refine ⟨fun chars => ?_, rfl, rfl, rfl⟩
  unfold lexBoolean
  split_ifs with h1 h2
  · exact iff_of_true ⟨_, rfl⟩ (Or.inl h1)
  · exact iff_of_true ⟨_, rfl⟩ (Or.inr h2)
  · exact iff_of_false (by simp) (by tauto)

/-! ## C7: escape decoding in string literals -/

theorem strSingleton_mk (c : Char) (l : List Char) :
    String.singleton c ++ String.mk l = String.mk (c :: l) :=
  rfl

theorem lexString_escape : ∀ (l rest : List Char),
    lexString (escapeChars l ++ '"' :: rest) = some ((escapeChars l).length, String.mk l)
  | [], rest => by
    simp only [escapeChars, List.nil_append]
    rw [lexString_quote]
    rfl
  | c :: l, rest => by
    by_cases hesc : c = '"' ∨ c = '\\'
    · have he : escapeChars (c :: l) = '\\' :: c :: escapeChars l := by
        simp [escapeChars, escapeChar, hesc]
      rw [he]
      simp only [List.cons_append]
      rw [lexString_bs, lexString_escape l rest]
      simp [strSingleton_mk, he]
    · push_neg at hesc
      have he : escapeChars (c :: l) = c :: escapeChars l := by
        simp [escapeChars, escapeChar, hesc.1, hesc.2]
      rw [he]
      simp only [List.cons_append]
      rw [lexString_other c hesc.1 hesc.2, lexString_escape l rest]
      simp [strSingleton_mk, he]

theorem drop_append_cons (a : List Char) (c : Char) (r : List Char) :
    (a ++ c :: r).drop (a.length + 1) = r := by
  rw [← List.drop_drop, List.drop_left]
  rfl

theorem lexLit (s : String) (f : Nat) (rest : List Char) :
    lexLoopF (f + 1) (encodeStringLit s ++ rest) = prep [strTok s] (lexLoopF f rest) := by
  have he : encodeStringLit s ++ rest = '"' :: (escapeChars s.toList ++ '"' :: rest) := by
    simp [encodeStringLit]
  rw [he, lexLoopF_quote_some f _ _ _ (lexString_escape s.toList rest),
    drop_append_cons]
  rfl

/-- C7: a backslash escape is decoded by dropping the backslash and keeping
the following character verbatim, and the closing quote is consumed but not
part of the token: scanning any escaped character list followed by the
closing quote yields exactly the unescaped string, the lexer then resumes
right after the closing quote, and concretely the JSON texts `["x\"y"]`
and `["\n"]` decode to `x"y` and the one-character string `n` (no
named-escape interpretation). -/
theorem lexString_unescapes :
    (∀ (l rest : List Char),
      lexString (escapeChars l ++ '"' :: rest) =
        some ((escapeChars l).length, String.mk l)) ∧
    (∀ (s : String) (f : Nat) (rest : List Char),
      lexLoopF (f + 1) (encodeStringLit s ++ rest) = prep [strTok s] (lexLoopF f rest)) ∧
    parse "[\"x\\\"y\"]" = .ok (.arr (.cons (.str "x\"y") .nil)) ∧
    parse "[\"\\n\"]" = .ok (.arr (.cons (.str "n") .nil)) :=
  ⟨lexString_escape, lexLit, rfl, rfl⟩

/-! ## C8: duplicate keys -/

/-- C8 (counterexample): with duplicate keys the surviving key keeps its
FIRST position, not the position of its last occurrence: the claim's
predicted tree (key order following the last occurrence) differs from the
tree the parser returns. -/
theorem parse_duplicate_keys_order :
    parse "\x7b\"a\":\"x\",\"b\":\"y\",\"a\":\"z\"\x7d" =
      .ok (.obj (.cons "a" (.str "z") (.cons "b" (.str "y") .nil))) ∧
    (Value.obj (.cons "a" (.str "z") (.cons "b" (.str "y") .nil)) ≠
      Value.obj (.cons "b" (.str "y") (.cons "a" (.str "z") .nil))) :=
  ⟨rfl, by simp⟩

theorem keysOf_setKey_mem : ∀ (l : FieldList) (k : String) (v : Value),
    isIndexKey k = false → (keysOf l).contains k = true →
    keysOf (setKey l k v) = keysOf l
  | .nil, k, v => by simp [keysOf]
  | .cons k2 v2 rest, k, v => by
    intro hidx h
    have hlt : ¬(keyLt k k2 = true) := by simp [keyLt, hidx]
    by_cases hk : k2 = k
    · simp [setKey, hk, keysOf]
    · have h' : (keysOf rest).contains k = true := by
        simp only [keysOf, List.contains_cons, Bool.or_eq_true, beq_iff_eq] at h
        rcases h with h | h
        · exact absurd h.symm hk
        · exact h
      simp [setKey, hk, hlt, keysOf, keysOf_setKey_mem rest k v hidx h']

theorem keysOf_setKey_new : ∀ (l : FieldList) (k : String) (v : Value),
    isIndexKey k = false → (keysOf l).contains k = false →
    keysOf (setKey l k v) = keysOf l ++ [k]
  | .nil, k, v => by simp [keysOf, setKey]
  | .cons k2 v2 rest, k, v => by
    intro hidx h
    have hlt : ¬(keyLt k k2 = true) := by simp [keyLt, hidx]
    simp only [keysOf, List.contains_cons, Bool.or_eq_false_iff, beq_eq_false_iff_ne] at h
    simp [setKey, Ne.symm h.1, hlt, keysOf, keysOf_setKey_new rest k v hidx h.2]

theorem getKey_setKey : ∀ (l : FieldList) (k : String) (v : Value),
    getKey (setKey l k v) k = some v
  | .nil, k, v => by simp [setKey, getKey]
  | .cons k2 v2 rest, k, v => by
    by_cases hk : k2 = k
    · simp [setKey, hk, getKey]
    · by_cases hlt : keyLt k k2 = true
      · simp [setKey, hk, hlt, getKey]
      · simp [setKey, hk, hlt, getKey, getKey_setKey rest k v]

theorem setKey_index_front : ∀ (l : FieldList) (k : String) (v : Value),
    isIndexKey k = true → (keysOf l).all (fun k2 => !isIndexKey k2) = true →
    setKey l k v = .cons k v l
  | .nil, k, v, _, _ => rfl
  | .cons k2 v2 rest, k, v, hidx, hall => by
    have h2 : isIndexKey k2 = false := by
      simp only [keysOf, List.all_cons, Bool.and_eq_true, Bool.not_eq_true'] at hall
      exact hall.1
    have hne : k2 ≠ k := by rintro rfl; rw [hidx] at h2; cases h2
    have hlt : keyLt k k2 = true := by simp [keyLt, hidx, h2]
    simp [setKey, hne, hlt]

/-- C8 (amended): duplicate keys raise no error; the resulting object maps
the key to the value of its LAST occurrence, but the enumeration order of
the surviving keys is JavaScript property order, not last-occurrence order:
an overwritten key keeps its position, a new non-index key is appended
(creation order), and an array-index-like key such as `"0"` is enumerated
before every non-index key regardless of when it was inserted - concretely
`\x7b"b":"y","0":"x","0":"z"\x7d` enumerates `"0"` before `"b"`. -/
theorem parse_duplicate_keys_overwrite :
    parse "\x7b\"a\":\"x\",\"a\":\"z\"\x7d" = .ok (.obj (.cons "a" (.str "z") .nil)) ∧
    parse "\x7b\"a\":\"x\",\"b\":\"y\",\"a\":\"z\"\x7d" =
      .ok (.obj (.cons "a" (.str "z") (.cons "b" (.str "y") .nil))) ∧
    parse "\x7b\"b\":\"y\",\"0\":\"x\",\"0\":\"z\"\x7d" =
      .ok (.obj (.cons "0" (.str "z") (.cons "b" (.str "y") .nil))) ∧
    (∀ (l : FieldList) (k : String) (v : Value), getKey (setKey l k v) k = some v) ∧
    (∀ (l : FieldList) (k : String) (v : Value), isIndexKey k = false →
      (keysOf l).contains k = true → keysOf (setKey l k v) = keysOf l) ∧
    (∀ (l : FieldList) (k : String) (v : Value), isIndexKey k = false →
      (keysOf l).contains k = false → keysOf (setKey l k v) = keysOf l ++ [k]) ∧
    (∀ (l : FieldList) (k : String) (v : Value), isIndexKey k = true →
      (keysOf l).all (fun k2 => !isIndexKey k2) = true →
      setKey l k v = .cons k v l) :=
  ⟨rfl, rfl, rfl, getKey_setKey, keysOf_setKey_mem, keysOf_setKey_new,
   setKey_index_front⟩

theorem parse_duplicate_keys_overwrite_witness :
    keysOf (setKey (.cons "a" (.str "x") .nil) "a" (.str "z")) =
      keysOf (FieldList.cons "a" (.str "x") .nil) ∧
    keysOf (setKey (.cons "a" (.str "x") .nil) "b" (.str "y")) =
      keysOf (FieldList.cons "a" (.str "x") .nil) ++ ["b"] ∧
    setKey (.cons "a" (.str "x") .nil) "0" (.str "z") =
      .cons "0" (.str "z") (.cons "a" (.str "x") .nil) :=
  ⟨parse_duplicate_keys_overwrite.2.2.2.2.1 (.cons "a" (.str "x") .nil) "a" (.str "z")
      (by decide) (by decide),
   parse_duplicate_keys_overwrite.2.2.2.2.2.1 (.cons "a" (.str "x") .nil) "b" (.str "y")
      (by decide) (by decide),
   parse_duplicate_keys_overwrite.2.2.2.2.2.2 (.cons "a" (.str "x") .nil) "0" (.str "z")
      (by decide) (by decide)⟩

/-! ## Auxiliaries for the round-trip development -/

theorem tokensOfValue_head (v : Value) (hv : goodValue v = true) :
    ∃ u us, tokensOfValue v = u :: us ∧
      u.value ≠ TkValue.s "," ∧ u.value ≠ TkValue.s "]" ∧ u.value ≠ TkValue.s "\x7d" := by
  cases v with
  | str s =>
    refine ⟨strTok s, [], rfl, ?_, ?_, ?_⟩ <;>
    · simp only [strTok, ne_eq, TkValue.s.injEq]
      rintro rfl
      exact absurd hv (by decide)
  | bool b =>
    exact ⟨boolTok b, [], rfl, by simp [boolTok], by simp [boolTok], by simp [boolTok]⟩
  | obj fs =>
    exact ⟨synTok "\x7b", _, rfl, by simp [synTok], by simp [synTok], by simp [synTok]⟩
  | arr es =>
    exact ⟨synTok "[", _, rfl, by simp [synTok], by simp [synTok], by simp [synTok]⟩

theorem isSynStringValue_collapse (v : Value) (hv : goodValue v = true) :
    isSynStringValue (collapseValue v) = false := by
  cases v with
  | str s =>
    have h : goodString s = true := hv
    simp only [goodString, Bool.not_eq_true'] at h
    exact h
  | bool b => rfl
  | obj fs => rfl
  | arr es => rfl

theorem catE_nil : ∀ l : ElemList, catE l .nil = l
  | .nil => rfl
  | .cons h r => by simp only [catE, catE_nil r]

theorem catE_push : ∀ (out : ElemList) (x : Value) (ys : ElemList),
    catE (pushElem out x) ys = catE out (.cons x ys)
  | .nil, _, _ => rfl
  | .cons h r, x, ys => by
    simp only [pushElem, catE, catE_push r x ys]

/-! ## Goodness extraction lemmas -/

theorem goodValue_obj_iff (k : String) (v : Value) (fs : FieldList) :
    goodValue (.obj (.cons k v fs)) = true ↔
      goodString k = true ∧ goodValue v = true ∧ goodFields fs = true := by
  simp [goodValue, Bool.and_eq_true, and_assoc]

theorem goodValue_arr_iff (v : Value) (es : ElemList) :
    goodValue (.arr (.cons v es)) = true ↔
      goodValue v = true ∧ goodElems es = true := by
  simp [goodValue, Bool.and_eq_true]

theorem goodFields_cons_iff (k : String) (v : Value) (fs : FieldList) :
    goodFields (.cons k v fs) = true ↔
      goodString k = true ∧ goodValue v = true ∧ goodFields fs = true := by
  simp [goodFields, Bool.and_eq_true, and_assoc]

theorem goodElems_cons_iff (v : Value) (es : ElemList) :
    goodElems (.cons v es) = true ↔ goodValue v = true ∧ goodElems es = true := by
  simp [goodElems, Bool.and_eq_true]

/-! ## Parsing an encoded value back (token level) -/

mutual
theorem rtValue : ∀ (v : Value), goodValue v = true → ∀ (f : Nat) (rest : List Token),
    parseTokensF (f + fNeedValue v) (tokensOfValue v ++ rest) =
      some (.ok (rest, collapseValue v))
  | .str s, hv, f, rest => by
    have h1 : s ≠ "\x7b" := by rintro rfl; exact absurd hv (by decide)
    have h2 : s ≠ "[" := by rintro rfl; exact absurd hv (by decide)
    simp only [fNeedValue, tokensOfValue, strTok, List.cons_append, List.nil_append]
    exact parseTokensF_str f s h1 h2 rest
  | .bool b, _, f, rest => by
    simp only [fNeedValue, tokensOfValue, boolTok, List.cons_append, List.nil_append]
    exact parseTokensF_bool f b rest
  | .obj .nil, hv, _, _ => absurd hv (by decide)
  | .obj (.cons k v fs), hv, f, rest => by
    obtain ⟨-, hv2, hfs⟩ := (goodValue_obj_iff k v fs).mp hv
    rw [show f + fNeedValue (.obj (.cons k v fs)) = (f + fNeedFields (.cons k v fs)) + 1
      from by simp only [fNeedValue]; omega]
    simp only [tokensOfValue, tokensOfFields, strTok, synTok, List.cons_append,
      List.append_assoc, List.singleton_append]
    rw [parseTokensF_obj]
    exact rtFields k v fs hv2 hfs f .nil rest
  | .arr .nil, hv, _, _ => absurd hv (by decide)
  | .arr (.cons v es), hv, f, rest => by
    obtain ⟨hv2, hes⟩ := (goodValue_arr_iff v es).mp hv
    rw [show f + fNeedValue (.arr (.cons v es)) = (f + fNeedElems (.cons v es)) + 1
      from by simp only [fNeedValue]; omega]
    simp only [tokensOfValue, tokensOfElems, synTok, List.cons_append,
      List.append_assoc, List.singleton_append]
    rw [parseTokensF_arr]
    exact rtElems v es hv2 hes f .nil rest
termination_by v _ _ _ => sizeOf v
decreasing_by all_goals (simp_wf; try omega)

theorem rtFields : ∀ (k : String) (v : Value) (fs : FieldList),
    goodValue v = true → goodFields fs = true →
    ∀ (f : Nat) (out : FieldList) (rest : List Token),
    parseObjectF (f + (1 + fNeedValue v + fNeedFields fs))
      (Token.mk .string (.s k) :: Token.mk .syn (.s ":") ::
        (tokensOfValue v ++ (tokensOfFieldsTail fs ++ Token.mk .syn (.s "\x7d") :: rest)))
      out =
      some (.ok (rest, .obj (foldSetKey out (collapseFields (.cons k v fs)))))
  | k, v, .nil, hv, _, f, out, rest => by
    rw [show f + (1 + fNeedValue v + fNeedFields FieldList.nil) =
      (f + fNeedValue v + fNeedFields FieldList.nil) + 1 from by omega]
    conv_lhs => unfold parseObjectF
    simp only []
    rw [if_neg (by simp), if_neg (by simp)]
    simp only [tokensOfFieldsTail, List.nil_append]
    rw [show f + fNeedValue v + fNeedFields FieldList.nil =
        (f + fNeedFields FieldList.nil) + fNeedValue v from by omega,
      rtValue v hv (f + fNeedFields FieldList.nil)
        (Token.mk .syn (.s "\x7d") :: rest)]
    rfl
  | k, v, .cons k2 v2 fs2, hv, hfs, f, out, rest => by
    obtain ⟨hk2, hv2, hfs2⟩ := (goodFields_cons_iff k2 v2 fs2).mp hfs
    have hk2ne : ¬(TkValue.s k2 = TkValue.s "\x7d") := by
      simp only [TkValue.s.injEq]
      rintro rfl
      exact absurd hk2 (by decide)
    rw [show f + (1 + fNeedValue v + fNeedFields (FieldList.cons k2 v2 fs2)) =
      (f + fNeedValue v + fNeedFields (FieldList.cons k2 v2 fs2)) + 1 from by omega]
    conv_lhs => unfold parseObjectF
    simp only []
    rw [if_neg (by simp), if_neg (by simp)]
    rw [show f + fNeedValue v + fNeedFields (FieldList.cons k2 v2 fs2) =
        (f + fNeedFields (FieldList.cons k2 v2 fs2)) + fNeedValue v from by omega,
      rtValue v hv (f + fNeedFields (FieldList.cons k2 v2 fs2))
        (tokensOfFieldsTail (FieldList.cons k2 v2 fs2) ++
          Token.mk .syn (.s "\x7d") :: rest)]
    simp only [tokensOfFieldsTail, strTok, synTok, List.cons_append, List.append_assoc]
    rw [if_pos trivial]
    rw [if_neg hk2ne, if_neg hk2ne]
    rw [show f + fNeedFields (FieldList.cons k2 v2 fs2) + fNeedValue v =
      (f + fNeedValue v) + (1 + fNeedValue v2 + fNeedFields fs2) from by
        simp only [fNeedFields]; omega]
    exact rtFields k2 v2 fs2 hv2 hfs2 (f + fNeedValue v) _ rest
termination_by k v fs _ _ _ _ _ => 1 + sizeOf v + sizeOf fs
decreasing_by all_goals (simp_wf; try omega)

theorem rtElems : ∀ (v : Value) (es : ElemList),
    goodValue v = true → goodElems es = true →
    ∀ (f : Nat) (out : ElemList) (rest : List Token),
    parseArrayF (f + (1 + fNeedValue v + fNeedElems es))
      (tokensOfValue v ++ (tokensOfElemsTail es ++ Token.mk .syn (.s "]") :: rest)) out =
      some (.ok (rest, .arr (catE out (collapseElems (.cons v es)))))
  | v, .nil, hv, _, f, out, rest => by
    rw [show f + (1 + fNeedValue v + fNeedElems ElemList.nil) =
      (f + fNeedValue v + fNeedElems ElemList.nil) + 1 from by omega]
    conv_lhs => unfold parseArrayF
    simp only []
    simp only [tokensOfElemsTail, List.nil_append]
    rw [show f + fNeedValue v + fNeedElems ElemList.nil =
        (f + fNeedElems ElemList.nil) + fNeedValue v from by omega,
      rtValue v hv (f + fNeedElems ElemList.nil) (Token.mk .syn (.s "]") :: rest)]
    simp only []
    rw [if_neg (by rw [isSynStringValue_collapse v hv]; exact Bool.false_ne_true)]
    rw [show pushElem out (collapseValue v) = catE out (.cons (collapseValue v) .nil)
      from by rw [← catE_nil (pushElem out (collapseValue v)), catE_push]]
    rfl
  | v, .cons v2 es2, hv, hes, f, out, rest => by
    obtain ⟨hv2, hes2⟩ := (goodElems_cons_iff v2 es2).mp hes
    obtain ⟨u2, us2, htoks, hne1, hne2, -⟩ := tokensOfValue_head v2 hv2
    rw [show f + (1 + fNeedValue v + fNeedElems (ElemList.cons v2 es2)) =
      (f + fNeedValue v + fNeedElems (ElemList.cons v2 es2)) + 1 from by omega]
    conv_lhs => unfold parseArrayF
    simp only []
    rw [show f + fNeedValue v + fNeedElems (ElemList.cons v2 es2) =
        (f + fNeedElems (ElemList.cons v2 es2)) + fNeedValue v from by omega,
      rtValue v hv (f + fNeedElems (ElemList.cons v2 es2))
        (tokensOfElemsTail (ElemList.cons v2 es2) ++ Token.mk .syn (.s "]") :: rest)]
    simp only []
    rw [if_neg (by rw [isSynStringValue_collapse v hv]; exact Bool.false_ne_true)]
    simp only [tokensOfElemsTail, synTok, List.cons_append, List.append_assoc]
    rw [if_pos trivial]
    simp only [htoks, List.cons_append]
    rw [if_neg hne2, if_neg hne2]
    rw [show (u2 :: (us2 ++ (tokensOfElemsTail es2 ++ Token.mk .syn (.s "]") :: rest))) =
      tokensOfValue v2 ++ (tokensOfElemsTail es2 ++ Token.mk .syn (.s "]") :: rest)
      from by rw [htoks]; rfl]
    rw [show f + fNeedElems (ElemList.cons v2 es2) + fNeedValue v =
      (f + fNeedValue v) + (1 + fNeedValue v2 + fNeedElems es2) from by
        simp only [fNeedElems]; omega]
    rw [rtElems v2 es2 hv2 hes2 (f + fNeedValue v) (pushElem out (collapseValue v)) rest]
    rw [catE_push]
    rfl
termination_by v es _ _ _ _ _ => 1 + sizeOf v + sizeOf es
decreasing_by all_goals (simp_wf; try omega)
end

/-! ## Lexing an encoded value -/

theorem headSep_fieldsTail (fs : FieldList) (rest : List Char) (h : headSep rest = true) :
    headSep (encodeFieldsTail fs ++ rest) = true := by
  cases fs with
  | nil => simpa [encodeFieldsTail]
  | cons k v fs2 => rfl

theorem headSep_elemsTail (es : ElemList) (rest : List Char) (h : headSep rest = true) :
    headSep (encodeElemsTail es ++ rest) = true := by
  cases es with
  | nil => simpa [encodeElemsTail]
  | cons v es2 => rfl

theorem lexLoopF_true (f : Nat) (rest : List Char) (h : headSep rest = true) :
    lexLoopF (f + 1) ('t' :: 'r' :: 'u' :: 'e' :: rest) =
      prep [boolTok true] (lexLoopF f rest) := by
  cases rest with
  | nil => simp [headSep] at h
  | cons c rest2 =>
    have hc : c = ',' ∨ c = '\x7d' ∨ c = ']' := by
      simp only [headSep, Bool.or_eq_true, beq_iff_eq] at h
      tauto
    have hb : lexBoolean ('t' :: 'r' :: 'u' :: 'e' :: c :: rest2) = .ok (boolTok true) := by
      unfold lexBoolean
      rw [if_pos]
      refine ⟨rfl, ?_⟩
      rcases hc with rfl | rfl | rfl
      · exact Or.inl (by simp)
      · exact Or.inr (Or.inl (by simp))
      · exact Or.inr (Or.inr (Or.inl (by simp)))
    rw [lexLoopF_tf_ok f 't' (by decide) (by decide) (by decide) (Or.inl rfl) _ _ hb]
    rfl

theorem lexLoopF_false (f : Nat) (rest : List Char) (h : headSep rest = true) :
    lexLoopF (f + 1) ('f' :: 'a' :: 'l' :: 's' :: 'e' :: rest) =
      prep [boolTok false] (lexLoopF f rest) := by
  cases rest with
  | nil => simp [headSep] at h
  | cons c rest2 =>
    have hc : c = ',' ∨ c = '\x7d' ∨ c = ']' := by
      simp only [headSep, Bool.or_eq_true, beq_iff_eq] at h
      tauto
    have hb : lexBoolean ('f' :: 'a' :: 'l' :: 's' :: 'e' :: c :: rest2) =
        .ok (boolTok false) := by
      unfold lexBoolean
      rw [if_neg (by simp), if_pos]
      refine ⟨rfl, ?_⟩
      rcases hc with rfl | rfl | rfl
      · exact Or.inl (by simp)
      · exact Or.inr (Or.inl (by simp))
      · exact Or.inr (Or.inr (Or.inl (by simp)))
    rw [lexLoopF_tf_ok f 'f' (by decide) (by decide) (by decide) (Or.inr rfl) _ _ hb]
    rfl

theorem sing_lbrace : String.singleton '\x7b' = "\x7b" := rfl

theorem sing_rbrace : String.singleton '\x7d' = "\x7d" := rfl

theorem sing_lbrack : String.singleton '[' = "[" := rfl

theorem sing_rbrack : String.singleton ']' = "]" := rfl

theorem sing_colon : String.singleton ':' = ":" := rfl

theorem sing_comma : String.singleton ',' = "," := rfl

mutual
theorem lexValue : ∀ (v : Value) (f : Nat) (rest : List Char),
    (isBoolValue v = true → headSep rest = true) →
    lexLoopF (f + (tokensOfValue v).length) (encodeValue v ++ rest) =
      prep (tokensOfValue v) (lexLoopF f rest)
  | .str s, f, rest, _ => by
    simp only [tokensOfValue, encodeValue, List.length_singleton]
    exact lexLit s f rest
  | .bool true, f, rest, hb => by
    simp only [tokensOfValue, encodeValue, List.length_singleton]
    exact lexLoopF_true f rest (hb rfl)
  | .bool false, f, rest, hb => by
    simp only [tokensOfValue, encodeValue, List.length_singleton]
    exact lexLoopF_false f rest (hb rfl)
  | .obj .nil, f, rest, _ => by
    rw [show f + (tokensOfValue (.obj .nil)).length = (f + 1) + 1 from by
      simp [tokensOfValue, tokensOfFields]]
    rw [show encodeValue (.obj .nil) ++ rest = '\x7b' :: '\x7d' :: rest from by
      simp [encodeValue, encodeFields]]
    rw [lexLoopF_syn (f + 1) '\x7b' (by decide) (by decide),
      lexLoopF_syn f '\x7d' (by decide) (by decide), prep_prep]
    simp [tokensOfValue, tokensOfFields, sing_lbrace, sing_rbrace]
  | .obj (.cons k v fs), f, rest, _ => by
    rw [show f + (tokensOfValue (.obj (.cons k v fs))).length =
      (((((f + 1) + (tokensOfFieldsTail fs).length) + (tokensOfValue v).length) + 1) + 1)
        + 1 from by
      simp only [tokensOfValue, tokensOfFields, List.length_cons, List.length_append,
        List.length_singleton, List.length_nil]
      omega]
    rw [show encodeValue (.obj (.cons k v fs)) ++ rest =
      '\x7b' :: (encodeStringLit k ++ (':' ::
        (encodeValue v ++ (encodeFieldsTail fs ++ ('\x7d' :: rest))))) from by
      simp [encodeValue, encodeFields, List.append_assoc]]
    rw [lexLoopF_syn _ '\x7b' (by decide) (by decide), lexLit k _ _,
      lexLoopF_syn _ ':' (by decide) (by decide),
      lexValue v ((f + 1) + (tokensOfFieldsTail fs).length)
        (encodeFieldsTail fs ++ ('\x7d' :: rest))
        (fun _ => headSep_fieldsTail fs ('\x7d' :: rest) rfl),
      lexFields fs (f + 1) ('\x7d' :: rest) rfl,
      lexLoopF_syn f '\x7d' (by decide) (by decide)]
    simp only [prep_prep]
    simp [tokensOfValue, tokensOfFields, sing_lbrace, sing_rbrace, sing_colon,
      List.append_assoc]
  | .arr .nil, f, rest, _ => by
    rw [show f + (tokensOfValue (.arr .nil)).length = (f + 1) + 1 from by
      simp [tokensOfValue, tokensOfElems]]
    rw [show encodeValue (.arr .nil) ++ rest = '[' :: ']' :: rest from by
      simp [encodeValue, encodeElems]]
    rw [lexLoopF_syn (f + 1) '[' (by decide) (by decide),
      lexLoopF_syn f ']' (by decide) (by decide), prep_prep]
    simp [tokensOfValue, tokensOfElems, sing_lbrack, sing_rbrack]
  | .arr (.cons v es), f, rest, _ => by
    rw [show f + (tokensOfValue (.arr (.cons v es))).length =
      (((f + 1) + (tokensOfElemsTail es).length) + (tokensOfValue v).length) + 1 from by
      simp only [tokensOfValue, tokensOfElems, List.length_cons, List.length_append,
        List.length_singleton, List.length_nil]
      omega]
    rw [show encodeValue (.arr (.cons v es)) ++ rest =
      '[' :: (encodeValue v ++ (encodeElemsTail es ++ (']' :: rest))) from by
      simp [encodeValue, encodeElems, List.append_assoc]]
    rw [lexLoopF_syn _ '[' (by decide) (by decide),
      lexValue v ((f + 1) + (tokensOfElemsTail es).length)
        (encodeElemsTail es ++ (']' :: rest))
        (fun _ => headSep_elemsTail es (']' :: rest) rfl),
      lexElems es (f + 1) (']' :: rest) rfl,
      lexLoopF_syn f ']' (by decide) (by decide)]
    simp only [prep_prep]
    simp [tokensOfValue, tokensOfElems, sing_lbrack, sing_rbrack, List.append_assoc]
termination_by v _ _ _ => sizeOf v
decreasing_by all_goals (simp_wf; try omega)

theorem lexFields : ∀ (fs : FieldList) (f : Nat) (rest : List Char),
    headSep rest = true →
    lexLoopF (f + (tokensOfFieldsTail fs).length) (encodeFieldsTail fs ++ rest) =
      prep (tokensOfFieldsTail fs) (lexLoopF f rest)
  | .nil, f, rest, _ => by
    simp only [tokensOfFieldsTail, encodeFieldsTail, List.length_nil, List.nil_append,
      Nat.add_zero]
    rw [prep_nil_toks]
  | .cons k v fs2, f, rest, h => by
    rw [show f + (tokensOfFieldsTail (.cons k v fs2)).length =
      ((((f + (tokensOfFieldsTail fs2).length) + (tokensOfValue v).length) + 1) + 1)
        + 1 from by
      simp only [tokensOfFieldsTail, List.length_cons, List.length_append]
      omega]
    rw [show encodeFieldsTail (.cons k v fs2) ++ rest =
      ',' :: (encodeStringLit k ++ (':' ::
        (encodeValue v ++ (encodeFieldsTail fs2 ++ rest)))) from by
      simp [encodeFieldsTail, List.append_assoc]]
    rw [lexLoopF_syn _ ',' (by decide) (by decide), lexLit k _ _,
      lexLoopF_syn _ ':' (by decide) (by decide),
      lexValue v (f + (tokensOfFieldsTail fs2).length) (encodeFieldsTail fs2 ++ rest)
        (fun _ => headSep_fieldsTail fs2 rest h),
      lexFields fs2 f rest h]
    simp only [prep_prep]
    simp [tokensOfFieldsTail, sing_comma, sing_colon, List.append_assoc]
termination_by fs _ _ _ => sizeOf fs
decreasing_by all_goals (simp_wf; try omega)

theorem lexElems : ∀ (es : ElemList) (f : Nat) (rest : List Char),
    headSep rest = true →
    lexLoopF (f + (tokensOfElemsTail es).length) (encodeElemsTail es ++ rest) =
      prep (tokensOfElemsTail es) (lexLoopF f rest)
  | .nil, f, rest, _ => by
    simp only [tokensOfElemsTail, encodeElemsTail, List.length_nil, List.nil_append,
      Nat.add_zero]
    rw [prep_nil_toks]
  | .cons v es2, f, rest, h => by
    rw [show f + (tokensOfElemsTail (.cons v es2)).length =
      ((f + (tokensOfElemsTail es2).length) + (tokensOfValue v).length) + 1 from by
      simp only [tokensOfElemsTail, List.length_cons, List.length_append]
      omega]
    rw [show encodeElemsTail (.cons v es2) ++ rest =
      ',' :: (encodeValue v ++ (encodeElemsTail es2 ++ rest)) from by
      simp [encodeElemsTail, List.append_assoc]]
    rw [lexLoopF_syn _ ',' (by decide) (by decide),
      lexValue v (f + (tokensOfElemsTail es2).length) (encodeElemsTail es2 ++ rest)
        (fun _ => headSep_elemsTail es2 rest h),
      lexElems es2 f rest h]
    simp only [prep_prep]
    simp [tokensOfElemsTail, sing_comma, List.append_assoc]
termination_by es _ _ _ => sizeOf es
decreasing_by all_goals (simp_wf; try omega)
end

/-! ## Token counts versus character counts and fuel needs -/

mutual
theorem tokLenV : ∀ v : Value, (tokensOfValue v).length ≤ (encodeValue v).length
  | .str s => by
    simp only [tokensOfValue, encodeValue, encodeStringLit, List.length_singleton,
      List.length_cons, List.length_append, List.length_nil]
    omega
  | .bool true => by decide
  | .bool false => by decide
  | .obj fs => by
    have h := tokLenF fs
    simp only [tokensOfValue, encodeValue, List.length_cons, List.length_append,
      List.length_singleton, List.length_nil]
    omega
  | .arr es => by
    have h := tokLenE es
    simp only [tokensOfValue, encodeValue, List.length_cons, List.length_append,
      List.length_singleton, List.length_nil]
    omega
theorem tokLenF : ∀ fs : FieldList, (tokensOfFields fs).length ≤ (encodeFields fs).length
  | .nil => Nat.le_refl _
  | .cons k v fs2 => by
    have h1 := tokLenV v
    have h2 := tokLenFT fs2
    have h3 : 2 ≤ (encodeStringLit k).length := by
      simp only [encodeStringLit, List.length_cons, List.length_append,
        List.length_singleton]
      omega
    simp only [tokensOfFields, encodeFields, List.length_cons, List.length_append]
    omega
theorem tokLenFT : ∀ fs : FieldList,
    (tokensOfFieldsTail fs).length ≤ (encodeFieldsTail fs).length
  | .nil => Nat.le_refl _
  | .cons k v fs2 => by
    have h1 := tokLenV v
    have h2 := tokLenFT fs2
    have h3 : 2 ≤ (encodeStringLit k).length := by
      simp only [encodeStringLit, List.length_cons, List.length_append,
        List.length_singleton]
      omega
    simp only [tokensOfFieldsTail, encodeFieldsTail, List.length_cons, List.length_append]
    omega
theorem tokLenE : ∀ es : ElemList, (tokensOfElems es).length ≤ (encodeElems es).length
  | .nil => Nat.le_refl _
  | .cons v es2 => by
    have h1 := tokLenV v
    have h2 := tokLenET es2
    simp only [tokensOfElems, encodeElems, List.length_append]
    omega
theorem tokLenET : ∀ es : ElemList,
    (tokensOfElemsTail es).length ≤ (encodeElemsTail es).length
  | .nil => Nat.le_refl _
  | .cons v es2 => by
    have h1 := tokLenV v
    have h2 := tokLenET es2
    simp only [tokensOfElemsTail, encodeElemsTail, List.length_cons, List.length_append]
    omega
end

mutual
theorem fNeedV_le : ∀ v : Value, fNeedValue v ≤ (tokensOfValue v).length
  | .str _ => by simp [fNeedValue, tokensOfValue]
  | .bool _ => by simp [fNeedValue, tokensOfValue]
  | .obj fs => by
    have h := fNeedFT_le fs
    simp only [fNeedValue, tokensOfValue, List.length_cons, List.length_append,
      List.length_singleton, List.length_nil]
    cases fs with
    | nil => simp [fNeedFields, tokensOfFields]
    | cons k v fs2 =>
      have h2 := fNeedV_le v
      have h3 := fNeedFT_le fs2
      simp only [fNeedFields, tokensOfFields, List.length_cons, List.length_append]
      omega
  | .arr es => by
    have h := fNeedET_le es
    simp only [fNeedValue, tokensOfValue, List.length_cons, List.length_append,
      List.length_singleton, List.length_nil]
    cases es with
    | nil => simp [fNeedElems, tokensOfElems]
    | cons v es2 =>
      have h2 := fNeedV_le v
      have h3 := fNeedET_le es2
      simp only [fNeedElems, tokensOfElems, List.length_append]
      omega
theorem fNeedFT_le : ∀ fs : FieldList, fNeedFields fs ≤ (tokensOfFieldsTail fs).length + 1
  | .nil => by simp [fNeedFields, tokensOfFieldsTail]
  | .cons k v fs2 => by
    have h1 := fNeedV_le v
    have h2 := fNeedFT_le fs2
    simp only [fNeedFields, tokensOfFieldsTail, List.length_cons, List.length_append]
    omega
theorem fNeedET_le : ∀ es : ElemList, fNeedElems es ≤ (tokensOfElemsTail es).length
  | .nil => by simp [fNeedElems, tokensOfElemsTail]
  | .cons v es2 => by
    have h1 := fNeedV_le v
    have h2 := fNeedET_le es2
    simp only [fNeedElems, tokensOfElemsTail, List.length_cons, List.length_append]
    omega
end

/-! ## C3: the encode-then-parse round trip -/

theorem parse_encode (v : Value) (hv : goodValue v = true) (hb : isBoolValue v = false) :
    parse (String.mk (encodeValue v)) = .ok (collapseValue v) := by
  have htok : lexLoopF ((encodeValue v).length + 1) (encodeValue v) =
      some (.ok (tokensOfValue v)) := by
    have hle := tokLenV v
    have h := lexValue v ((encodeValue v).length + 1 - (tokensOfValue v).length) []
      (by intro habs; rw [hb] at habs; cases habs)
    rw [List.append_nil] at h
    rw [show (encodeValue v).length + 1 - (tokensOfValue v).length +
        (tokensOfValue v).length = (encodeValue v).length + 1 from by omega] at h
    rw [h, show (encodeValue v).length + 1 - (tokensOfValue v).length =
      ((encodeValue v).length - (tokensOfValue v).length) + 1 from by omega,
      lexLoopF_nil]
    simp [prep, Except.map]
  have hpars : parseTokensF ((tokensOfValue v).length + 1) (tokensOfValue v) =
      some (.ok ([], collapseValue v)) := by
    have hle := fNeedV_le v
    have h := rtValue v hv ((tokensOfValue v).length + 1 - fNeedValue v) []
    rw [List.append_nil] at h
    rw [show (tokensOfValue v).length + 1 - fNeedValue v + fNeedValue v =
        (tokensOfValue v).length + 1 from by omega] at h
    exact h
  unfold parse lex
  rw [show (String.mk (encodeValue v)).toList = encodeValue v from rfl, htok]
  simp only []
  rw [hpars]

/-! ## Unique keys: collapsing is the identity -/

theorem catF_nil : ∀ a : FieldList, catF a .nil = a
  | .nil => rfl
  | .cons k v a2 => by simp only [catF, catF_nil a2]

theorem catF_assoc : ∀ a b c : FieldList, catF (catF a b) c = catF a (catF b c)
  | .nil, _, _ => rfl
  | .cons k v a2, b, c => by simp only [catF, catF_assoc a2 b c]

theorem keysOf_catF : ∀ a b : FieldList, keysOf (catF a b) = keysOf a ++ keysOf b
  | .nil, _ => rfl
  | .cons k v a2, b => by simp only [catF, keysOf, keysOf_catF a2 b, List.cons_append]

theorem setKey_not_mem : ∀ (acc : FieldList) (k : String) (v : Value),
    isIndexKey k = false → ¬(k ∈ keysOf acc) → setKey acc k v = catF acc (.cons k v .nil)
  | .nil, _, _, _, _ => rfl
  | .cons k2 v2 rest, k, v, hidx, h => by
    have hne : k2 ≠ k := by rintro rfl; exact h (by simp [keysOf])
    have hlt : ¬(keyLt k k2 = true) := by simp [keyLt, hidx]
    simp only [setKey, if_neg hne, if_neg hlt, catF,
      setKey_not_mem rest k v hidx (fun hm => h (by simp [keysOf, hm]))]

theorem foldSetKey_disjoint : ∀ (fs acc : FieldList),
    (∀ k, k ∈ keysOf fs → isIndexKey k = false) →
    (∀ k, k ∈ keysOf fs → ¬(k ∈ keysOf acc)) → (keysOf fs).Nodup →
    foldSetKey acc fs = catF acc fs
  | .nil, acc, _, _, _ => by simp only [foldSetKey, catF_nil]
  | .cons k v fs2, acc, hidx, hdisj, hnd => by
    have hk : ¬(k ∈ keysOf acc) := hdisj k (by simp [keysOf])
    have hik : isIndexKey k = false := hidx k (by simp [keysOf])
    have hnd2 := (List.nodup_cons.mp (by simpa [keysOf] using hnd))
    simp only [foldSetKey, setKey_not_mem acc k v hik hk]
    rw [foldSetKey_disjoint fs2 (catF acc (.cons k v .nil))
        (fun k2 hm2 => hidx k2 (by simp [keysOf, hm2])) ?disj hnd2.2,
      catF_assoc]
    case disj =>
      intro k2 hm2
      rw [keysOf_catF]
      simp only [List.mem_append, keysOf, List.mem_singleton, List.mem_cons,
        List.not_mem_nil, or_false]
      rintro (hacc | rfl)
      · exact hdisj k2 (by simp [keysOf, hm2]) hacc
      · exact hnd2.1 hm2
    rfl

theorem keysOf_collapseFields : ∀ fs : FieldList, keysOf (collapseFields fs) = keysOf fs
  | .nil => rfl
  | .cons k v fs2 => by simp only [collapseFields, keysOf, keysOf_collapseFields fs2]

theorem noIdxFields_keys : ∀ fs : FieldList, noIdxFields fs = true →
    ∀ k, k ∈ keysOf fs → isIndexKey k = false
  | .nil, _, k, hm => by simp [keysOf] at hm
  | .cons k2 v fs2, h, k, hm => by
    simp only [noIdxFields, Bool.and_eq_true, Bool.not_eq_true'] at h
    simp only [keysOf, List.mem_cons] at hm
    rcases hm with rfl | hm
    · exact h.1.1
    · exact noIdxFields_keys fs2 h.2 k hm

mutual
theorem collapseV_id : ∀ v : Value, uniqValue v = true → noIdxValue v = true →
    collapseValue v = v
  | .str _, _, _ => rfl
  | .bool _, _, _ => rfl
  | .obj fs, h, hn => by
    have hh : (keysOf fs).Nodup ∧ uniqFields fs = true := by
      simpa [uniqValue, Bool.and_eq_true, decide_eq_true_eq] using h
    have hnf : noIdxFields fs = true := by simpa [noIdxValue] using hn
    have hfold : foldSetKey .nil (collapseFields fs) = fs := by
      rw [foldSetKey_disjoint (collapseFields fs) .nil
          (by intro k hmem; rw [keysOf_collapseFields] at hmem
              exact noIdxFields_keys fs hnf k hmem)
          (by intro k _ hmem; simp [keysOf] at hmem)
          (by rw [keysOf_collapseFields]; exact hh.1),
        show catF FieldList.nil (collapseFields fs) = collapseFields fs from rfl]
      exact collapseF_id fs hh.2 hnf
    simp only [collapseValue, hfold]
  | .arr es, h, hn => by
    have he := collapseE_id es (by simpa [uniqValue] using h)
      (by simpa [noIdxValue] using hn)
    simp only [collapseValue, he]
theorem collapseF_id : ∀ fs : FieldList, uniqFields fs = true → noIdxFields fs = true →
    collapseFields fs = fs
  | .nil, _, _ => rfl
  | .cons k v fs2, h, hn => by
    have hh : uniqValue v = true ∧ uniqFields fs2 = true := by
      simpa [uniqFields, Bool.and_eq_true] using h
    have hnn : noIdxValue v = true ∧ noIdxFields fs2 = true := by
      simp only [noIdxFields, Bool.and_eq_true] at hn
      exact ⟨hn.1.2, hn.2⟩
    simp only [collapseFields, collapseV_id v hh.1 hnn.1, collapseF_id fs2 hh.2 hnn.2]
theorem collapseE_id : ∀ es : ElemList, uniqElems es = true → noIdxElems es = true →
    collapseElems es = es
  | .nil, _, _ => rfl
  | .cons v es2, h, hn => by
    have hh : uniqValue v = true ∧ uniqElems es2 = true := by
      simpa [uniqElems, Bool.and_eq_true] using h
    have hnn : noIdxValue v = true ∧ noIdxElems es2 = true := by
      simpa [noIdxElems, Bool.and_eq_true] using hn
    simp only [collapseElems, collapseV_id v hh.1 hnn.1, collapseE_id es2 hh.2 hnn.2]
end

/-! ## The reference encoder agrees with the control-free encoding on
clean trees -/

theorem cleanString_good (s : String) (h : cleanString s = true) :
    goodString s = true ∧ s.toList.all cleanChar = true := by
  simpa [cleanString, Bool.and_eq_true] using h

theorem refEscapeChar_eq (c : Char) (h : cleanChar c = true) :
    refEscapeChar c = escapeChar c := by
  have h32 : 32 ≤ c.toNat := by simpa [cleanChar] using h
  by_cases h1 : c = '"'
  · simp [refEscapeChar, escapeChar, h1]
  · by_cases h2 : c = '\\'
    · simp [refEscapeChar, escapeChar, h1, h2]
    · have hb : c ≠ '\x08' := by rintro rfl; exact absurd h32 (by decide)
      have ht : c ≠ '\t' := by rintro rfl; exact absurd h32 (by decide)
      have hn : c ≠ '\n' := by rintro rfl; exact absurd h32 (by decide)
      have hf : c ≠ '\x0c' := by rintro rfl; exact absurd h32 (by decide)
      have hr : c ≠ '\r' := by rintro rfl; exact absurd h32 (by decide)
      have hc : ¬(c.toNat < 32) := by omega
      simp [refEscapeChar, escapeChar, h1, h2, hb, ht, hn, hf, hr, hc]

theorem refEscapeChars_eq : ∀ l : List Char, l.all cleanChar = true →
    refEscapeChars l = escapeChars l
  | [], _ => rfl
  | c :: cs, h => by
    simp only [List.all_cons, Bool.and_eq_true] at h
    simp only [refEscapeChars, escapeChars, refEscapeChar_eq c h.1,
      refEscapeChars_eq cs h.2]

theorem refStringLit_eq (s : String) (h : s.toList.all cleanChar = true) :
    refStringLit s = encodeStringLit s := by
  simp only [refStringLit, encodeStringLit, refEscapeChars_eq s.toList h]

mutual
theorem refEncodeV_eq : ∀ v : Value, cleanValue v = true →
    refEncodeValue v = encodeValue v
  | .str s, h => refStringLit_eq s (cleanString_good s h).2
  | .bool true, _ => rfl
  | .bool false, _ => rfl
  | .obj .nil, h => by cases h
  | .obj (.cons k v fs), h => by
    have hh : cleanString k = true ∧ cleanValue v = true ∧ cleanFields fs = true := by
      simpa [cleanValue, Bool.and_eq_true, and_assoc] using h
    simp only [refEncodeValue, encodeValue, refEncodeFields, encodeFields,
      refStringLit_eq k (cleanString_good k hh.1).2, refEncodeV_eq v hh.2.1,
      refEncodeFT_eq fs hh.2.2]
  | .arr .nil, h => by cases h
  | .arr (.cons v es), h => by
    have hh : cleanValue v = true ∧ cleanElems es = true := by
      simpa [cleanValue, Bool.and_eq_true] using h
    simp only [refEncodeValue, encodeValue, refEncodeElems, encodeElems,
      refEncodeV_eq v hh.1, refEncodeET_eq es hh.2]
theorem refEncodeFT_eq : ∀ fs : FieldList, cleanFields fs = true →
    refEncodeFieldsTail fs = encodeFieldsTail fs
  | .nil, _ => rfl
  | .cons k v fs2, h => by
    have hh : cleanString k = true ∧ cleanValue v = true ∧ cleanFields fs2 = true := by
      simpa [cleanFields, Bool.and_eq_true, and_assoc] using h
    simp only [refEncodeFieldsTail, encodeFieldsTail,
      refStringLit_eq k (cleanString_good k hh.1).2, refEncodeV_eq v hh.2.1,
      refEncodeFT_eq fs2 hh.2.2]
theorem refEncodeET_eq : ∀ es : ElemList, cleanElems es = true →
    refEncodeElemsTail es = encodeElemsTail es
  | .nil, _ => rfl
  | .cons v es2, h => by
    have hh : cleanValue v = true ∧ cleanElems es2 = true := by
      simpa [cleanElems, Bool.and_eq_true] using h
    simp only [refEncodeElemsTail, encodeElemsTail, refEncodeV_eq v hh.1,
      refEncodeET_eq es2 hh.2]
end

mutual
theorem cleanV_good : ∀ v : Value, cleanValue v = true → goodValue v = true
  | .str s, h => by
    simp only [goodValue]
    exact (cleanString_good s h).1
  | .bool _, _ => rfl
  | .obj .nil, h => by cases h
  | .obj (.cons k v fs), h => by
    have hh : cleanString k = true ∧ cleanValue v = true ∧ cleanFields fs = true := by
      simpa [cleanValue, Bool.and_eq_true, and_assoc] using h
    simp only [goodValue, Bool.and_eq_true]
    exact ⟨⟨(cleanString_good k hh.1).1, cleanV_good v hh.2.1⟩, cleanF_good fs hh.2.2⟩
  | .arr .nil, h => by cases h
  | .arr (.cons v es), h => by
    have hh : cleanValue v = true ∧ cleanElems es = true := by
      simpa [cleanValue, Bool.and_eq_true] using h
    simp only [goodValue, Bool.and_eq_true]
    exact ⟨cleanV_good v hh.1, cleanE_good es hh.2⟩
theorem cleanF_good : ∀ fs : FieldList, cleanFields fs = true → goodFields fs = true
  | .nil, _ => rfl
  | .cons k v fs2, h => by
    have hh : cleanString k = true ∧ cleanValue v = true ∧ cleanFields fs2 = true := by
      simpa [cleanFields, Bool.and_eq_true, and_assoc] using h
    simp only [goodFields, Bool.and_eq_true]
    exact ⟨⟨(cleanString_good k hh.1).1, cleanV_good v hh.2.1⟩, cleanF_good fs2 hh.2.2⟩
theorem cleanE_good : ∀ es : ElemList, cleanElems es = true → goodElems es = true
  | .nil, _ => rfl
  | .cons v es2, h => by
    have hh : cleanValue v = true ∧ cleanElems es2 = true := by
      simpa [cleanElems, Bool.and_eq_true] using h
    simp only [goodElems, Bool.and_eq_true]
    exact ⟨cleanV_good v hh.1, cleanE_good es2 hh.2⟩
end

/-- C3 (counterexample): the round trip fails as universally stated: an
empty object encodes to "\x7b\x7d" which the parser rejects, a bare
boolean encodes to a literal the lexer rejects at end of input, the array
holding the one-character string "," encodes to text the parser rejects
(its loop mistakes the string value for a structural token), and a string
containing a line feed is encoded with the escape sequence backslash-n,
which the parser decodes back to the letter n - a different tree. -/
theorem encode_parse_counterexample :
    parse (String.mk (refEncodeValue (.obj .nil))) =
      .err (.parseError "[parser.object] Missing expected \"\x7d\".") ∧
    parse (String.mk (refEncodeValue (.bool true))) =
      .err (.lexError "[lexer.boolean] Unknown boolean value.") ∧
    parse (String.mk (refEncodeValue (.arr (.cons (.str ",") .nil)))) =
      .err (.parseError "[parser.array] Missing expected \"]\".") ∧
    parse (String.mk (refEncodeValue (.arr (.cons (.str "a\nb") .nil)))) =
      .ok (.arr (.cons (.str "anb") .nil)) ∧
    Value.arr (.cons (.str "anb") .nil) ≠ .arr (.cons (.str "a\nb") .nil) :=
  ⟨rfl, rfl, rfl, rfl, by simp⟩

/-- C3 (amended): for every value tree whose objects and arrays are all
nonempty, whose strings (keys and values) are neither one-character
structural strings nor contain control characters, and whose root is not a
bare boolean, encoding with the reference JSON encoder and parsing back
returns the tree with every object's members collapsed by repeated
JavaScript assignment (the last value of a repeated key wins, keys
enumerated in JavaScript property order); when additionally all keys are
unique and no key is array-index-like, the collapse is the identity, so
the round trip returns the original tree exactly. -/
theorem encode_parse_roundtrip :
    (∀ v : Value, cleanValue v = true → isBoolValue v = false →
      parse (String.mk (refEncodeValue v)) = .ok (collapseValue v)) ∧
    (∀ v : Value, uniqValue v = true → noIdxValue v = true → collapseValue v = v) := by
  refine ⟨fun v hv hb => ?_, collapseV_id⟩
  rw [refEncodeV_eq v hv]
  exact parse_encode v (cleanV_good v hv) hb

theorem encode_parse_roundtrip_witness :
    parse (String.mk (refEncodeValue
      (.obj (.cons "a" (.arr (.cons (.bool true) (.cons (.str "b") .nil))) .nil)))) =
      .ok (collapseValue
        (.obj (.cons "a" (.arr (.cons (.bool true) (.cons (.str "b") .nil))) .nil))) ∧
    collapseValue
        (.obj (.cons "a" (.arr (.cons (.bool true) (.cons (.str "b") .nil))) .nil)) =
      .obj (.cons "a" (.arr (.cons (.bool true) (.cons (.str "b") .nil))) .nil) :=
  ⟨encode_parse_roundtrip.1 _ (by decide) (by decide),
   encode_parse_roundtrip.2 _ (by decide) (by decide)⟩

/-! ## C9: the value separator is effectively optional -/

theorem ncFields : ∀ (fs : FieldList) (k : String) (v : Value),
    goodValue v = true → goodFields fs = true →
    ∀ (f : Nat) (out : FieldList) (rest : List Token),
    parseObjectF (f + (1 + fNeedValue v + fNeedFields fs))
      (Token.mk .string (.s k) :: Token.mk .syn (.s ":") ::
        (tokensOfValue v ++ (tokensOfFieldsNC fs ++ Token.mk .syn (.s "\x7d") :: rest)))
      out =
      some (.ok (rest, .obj (foldSetKey out (collapseFields (.cons k v fs)))))
  | .nil, k, v, hv, _, f, out, rest => by
    rw [show f + (1 + fNeedValue v + fNeedFields FieldList.nil) =
      (f + fNeedValue v + fNeedFields FieldList.nil) + 1 from by omega]
    conv_lhs => unfold parseObjectF
    simp only []
    rw [if_neg (by simp), if_neg (by simp)]
    simp only [tokensOfFieldsNC, List.nil_append]
    rw [show f + fNeedValue v + fNeedFields FieldList.nil =
        (f + fNeedFields FieldList.nil) + fNeedValue v from by omega,
      rtValue v hv (f + fNeedFields FieldList.nil)
        (Token.mk .syn (.s "\x7d") :: rest)]
    rfl
  | .cons k2 v2 fs2, k, v, hv, hfs, f, out, rest => by
    obtain ⟨hk2, hv2, hfs2⟩ := (goodFields_cons_iff k2 v2 fs2).mp hfs
    have hk2c : ¬(TkValue.s k2 = TkValue.s ",") := by
      simp only [TkValue.s.injEq]
      rintro rfl
      exact absurd hk2 (by decide)
    have hk2b : ¬(TkValue.s k2 = TkValue.s "\x7d") := by
      simp only [TkValue.s.injEq]
      rintro rfl
      exact absurd hk2 (by decide)
    rw [show f + (1 + fNeedValue v + fNeedFields (FieldList.cons k2 v2 fs2)) =
      (f + fNeedValue v + fNeedFields (FieldList.cons k2 v2 fs2)) + 1 from by omega]
    conv_lhs => unfold parseObjectF
    simp only []
    rw [if_neg (by simp), if_neg (by simp)]
    rw [show f + fNeedValue v + fNeedFields (FieldList.cons k2 v2 fs2) =
        (f + fNeedFields (FieldList.cons k2 v2 fs2)) + fNeedValue v from by omega,
      rtValue v hv (f + fNeedFields (FieldList.cons k2 v2 fs2))
        (tokensOfFieldsNC (FieldList.cons k2 v2 fs2) ++
          Token.mk .syn (.s "\x7d") :: rest)]
    simp only [tokensOfFieldsNC, strTok, synTok, List.cons_append, List.append_assoc]
    rw [if_neg hk2c, if_neg hk2b]
    rw [show f + fNeedFields (FieldList.cons k2 v2 fs2) + fNeedValue v =
      (f + fNeedValue v) + (1 + fNeedValue v2 + fNeedFields fs2) from by
        simp only [fNeedFields]; omega]
    exact ncFields fs2 k2 v2 hv2 hfs2 (f + fNeedValue v) _ rest

theorem ncElems : ∀ (es : ElemList) (v : Value),
    goodValue v = true → goodElems es = true →
    ∀ (f : Nat) (out : ElemList) (rest : List Token),
    parseArrayF (f + (1 + fNeedValue v + fNeedElems es))
      (tokensOfValue v ++ (tokensOfElemsNC es ++ Token.mk .syn (.s "]") :: rest)) out =
      some (.ok (rest, .arr (catE out (collapseElems (.cons v es)))))
  | .nil, v, hv, _, f, out, rest => by
    rw [show f + (1 + fNeedValue v + fNeedElems ElemList.nil) =
      (f + fNeedValue v + fNeedElems ElemList.nil) + 1 from by omega]
    conv_lhs => unfold parseArrayF
    simp only []
    simp only [tokensOfElemsNC, List.nil_append]
    rw [show f + fNeedValue v + fNeedElems ElemList.nil =
        (f + fNeedElems ElemList.nil) + fNeedValue v from by omega,
      rtValue v hv (f + fNeedElems ElemList.nil) (Token.mk .syn (.s "]") :: rest)]
    simp only []
    rw [if_neg (by rw [isSynStringValue_collapse v hv]; exact Bool.false_ne_true)]
    rw [show pushElem out (collapseValue v) = catE out (.cons (collapseValue v) .nil)
      from by rw [← catE_nil (pushElem out (collapseValue v)), catE_push]]
    rfl
  | .cons v2 es2, v, hv, hes, f, out, rest => by
    obtain ⟨hv2, hes2⟩ := (goodElems_cons_iff v2 es2).mp hes
    obtain ⟨u2, us2, htoks, hne1, hne2, -⟩ := tokensOfValue_head v2 hv2
    rw [show f + (1 + fNeedValue v + fNeedElems (ElemList.cons v2 es2)) =
      (f + fNeedValue v + fNeedElems (ElemList.cons v2 es2)) + 1 from by omega]
    conv_lhs => unfold parseArrayF
    simp only []
    rw [show f + fNeedValue v + fNeedElems (ElemList.cons v2 es2) =
        (f + fNeedElems (ElemList.cons v2 es2)) + fNeedValue v from by omega,
      rtValue v hv (f + fNeedElems (ElemList.cons v2 es2))
        (tokensOfElemsNC (ElemList.cons v2 es2) ++ Token.mk .syn (.s "]") :: rest)]
    simp only []
    rw [if_neg (by rw [isSynStringValue_collapse v hv]; exact Bool.false_ne_true)]
    simp only [tokensOfElemsNC, List.cons_append, List.append_assoc]
    simp only [htoks, List.cons_append]
    rw [if_neg hne1, if_neg hne2]
    rw [show (u2 :: (us2 ++ (tokensOfElemsNC es2 ++ Token.mk .syn (.s "]") :: rest))) =
      tokensOfValue v2 ++ (tokensOfElemsNC es2 ++ Token.mk .syn (.s "]") :: rest)
      from by rw [htoks]; rfl]
    rw [show f + fNeedElems (ElemList.cons v2 es2) + fNeedValue v =
      (f + fNeedValue v) + (1 + fNeedValue v2 + fNeedElems es2) from by
        simp only [fNeedElems]; omega]
    rw [ncElems es2 v2 hv2 hes2 (f + fNeedValue v) (pushElem out (collapseValue v)) rest]
    rw [catE_push]
    rfl

/-- C9 (counterexample): the claim fails as stated: in `["x" "]"]` the two
elements are separated by whitespace only, parse raises no error and
returns the array holding only "x" (the string "]" is mistaken for the
end-array token), while the comma version `["x","]"]` throws the
no-trailing-commas ParseError — so the whitespace-separated input does not
return the same tree as the input with the comma present. -/
theorem comma_optional_counterexample :
    parse "[\"x\" \"]\"]" = .ok (.arr (.cons (.str "x") .nil)) ∧
    parse "[\"x\",\"]\"]" =
      .err (.parseError "[parser.array] No trailing commas allowed.") :=
  ⟨rfl, rfl⟩

/-- C9 (amended): when the member keys and string values are not
one-character structural strings, the value separator is effectively
optional: at the token level the object and array loops return the same
result whether or not the members/elements are comma-separated, and
whitespace-separated input texts parse to the same trees as their
comma-separated counterparts (for booleans the lexer's delimiter lookahead
must still succeed, e.g. two spaces after `true`). -/
theorem comma_optional :
    (∀ (k : String) (v : Value) (fs : FieldList),
      goodValue v = true → goodFields fs = true →
      ∀ (f : Nat) (out : FieldList) (rest : List Token),
      parseObjectF (f + (1 + fNeedValue v + fNeedFields fs))
        (Token.mk .string (.s k) :: Token.mk .syn (.s ":") ::
          (tokensOfValue v ++ (tokensOfFieldsNC fs ++ Token.mk .syn (.s "\x7d") :: rest)))
        out =
      parseObjectF (f + (1 + fNeedValue v + fNeedFields fs))
        (Token.mk .string (.s k) :: Token.mk .syn (.s ":") ::
          (tokensOfValue v ++ (tokensOfFieldsTail fs ++ Token.mk .syn (.s "\x7d") :: rest)))
        out) ∧
    (∀ (v : Value) (es : ElemList),
      goodValue v = true → goodElems es = true →
      ∀ (f : Nat) (out : ElemList) (rest : List Token),
      parseArrayF (f + (1 + fNeedValue v + fNeedElems es))
        (tokensOfValue v ++ (tokensOfElemsNC es ++ Token.mk .syn (.s "]") :: rest)) out =
      parseArrayF (f + (1 + fNeedValue v + fNeedElems es))
        (tokensOfValue v ++ (tokensOfElemsTail es ++ Token.mk .syn (.s "]") :: rest)) out) ∧
    parse "\x7b\"a\":\"b\" \"c\":\"d\"\x7d" = parse "\x7b\"a\":\"b\",\"c\":\"d\"\x7d" ∧
    parse "[\"x\" \"y\"]" = parse "[\"x\",\"y\"]" ∧
    parse "[true  false]" = parse "[true,false]" := by
  refine ⟨?_, ?_, rfl, rfl, rfl⟩
  · intro k v fs hv hfs f out rest
    rw [ncFields fs k v hv hfs f out rest, rtFields k v fs hv hfs f out rest]
  · intro v es hv hes f out rest
    rw [ncElems es v hv hes f out rest, rtElems v es hv hes f out rest]

theorem comma_optional_witness :
    parseObjectF (0 + (1 + fNeedValue (.str "b") + fNeedFields .nil))
      (Token.mk .string (.s "a") :: Token.mk .syn (.s ":") ::
        (tokensOfValue (.str "b") ++
          (tokensOfFieldsNC .nil ++ Token.mk .syn (.s "\x7d") :: []))) .nil =
    parseObjectF (0 + (1 + fNeedValue (.str "b") + fNeedFields .nil))
      (Token.mk .string (.s "a") :: Token.mk .syn (.s ":") ::
        (tokensOfValue (.str "b") ++
          (tokensOfFieldsTail .nil ++ Token.mk .syn (.s "\x7d") :: []))) .nil :=
  comma_optional.1 "a" (.str "b") .nil (by decide) (by decide) 0 .nil []

end ToyJson
